import Mathlib

/-!
# The m3u playlist reader and writer (m3u.go)

A shallow embedding of `Parse`, `Marshall` and `MarshallInto` of `m3u.go`, with the
standard-library functions they call (`strings`, `strconv`, `regexp`, `fmt`, `bufio`).

Modelling conventions

* A Go `string` is a list of Unicode code points (`Str`); the embedding covers texts that are
  valid UTF-8.  `utf8Len` gives the length in bytes where the code depends on it.
* Go `int` is the 64-bit signed integer; `Atoi` rejects numerals outside that range.
* A nil slice and an empty slice are both the empty list.
* `Parse` is modelled from the point where the source has been opened: its input is the
  sequence of lines that `scanner.Scan()` delivers (`Parse`), or the text of the file
  (`ParseText`, through `ScanLines`).
* A call of a Go function either returns `(playlist, nil)`, returns `(playlist, err)` with a
  non-nil error, or panics; `Result` has one constructor for each.
-/

namespace M3U

/-- Go strings: sequences of Unicode code points. -/
abbrev Str := List Char

/-! ## Data model (m3u.go, lines 16-34) -/

/-- A Tag is a simple key/value pair. -/
structure Tag where
  Name : Str
  Value : Str
deriving DecidableEq, Repr

/-- Track represents an m3u track with a Name, Length, URI, a set of tags and a Group. -/
structure Track where
  Name : Str
  Length : Int
  URI : Str
  Tags : List Tag
  Group : Str
deriving DecidableEq, Repr

/-- Playlist is a type that represents an m3u playlist containing 0 or more tracks. -/
structure Playlist where
  Tracks : List Track
deriving DecidableEq, Repr

/-- The outcome of a call of `Parse`: `ok p` is the return `(p, nil)`, `error p msg` the return
of `p` together with `errors.New(msg)`, and `panic` a run-time panic (index out of range). -/
inductive Result where
  | ok (playlist : Playlist)
  | error (playlist : Playlist) (msg : String)
  | panic
deriving DecidableEq, Repr

/-! ## Package `strings` -/

/-- `strings.HasPrefix(s, pre)`. -/
def HasPrefix (s pre : Str) : Bool := pre.isPrefixOf s

/-- Worker of `Remove`: `skip` counts the characters of a matched occurrence that are still to
be dropped. -/
def removeFrom (old : Str) : Nat → Str → Str
  | _, [] => []
  | skip + 1, _ :: cs => removeFrom old skip cs
  | 0, c :: cs =>
    if old.isPrefixOf (c :: cs) then removeFrom old (old.length - 1) cs
    else c :: removeFrom old 0 cs

/-- `strings.Replace(s, old, "", -1)` for a non-empty `old`: every non-overlapping occurrence of
`old`, found from left to right, is removed. -/
def Remove (s old : Str) : Str := removeFrom old 0 s

/-- Puts a character in front of the first piece of a split. -/
def consFirst (c : Char) : List Str → List Str
  | [] => [[c]]
  | piece :: pieces => (c :: piece) :: pieces

/-- `strings.Split(s, sep)` for a separator of one character: the pieces between the
occurrences of `sep`; there is always at least one piece. -/
def Split (s : Str) (sep : Char) : List Str :=
  match s with
  | [] => [[]]
  | c :: cs => if c = sep then [] :: Split cs sep else consFirst c (Split cs sep)

/-- `strings.Trim(s, " ")`: leading and trailing spaces are removed. -/
def Trim (s : Str) : Str :=
  (s.dropWhile (· = ' ')).rdropWhile (· = ' ')

/-- `unicode.IsSpace`: the code points with the White_Space property. -/
def IsSpace (c : Char) : Bool :=
  let n := c.toNat
  (0x09 ≤ n && n ≤ 0x0D) || n = 0x20 || n = 0x85 || n = 0xA0 || n = 0x1680 ||
  (0x2000 ≤ n && n ≤ 0x200A) || n = 0x2028 || n = 0x2029 || n = 0x202F || n = 0x205F ||
  n = 0x3000

/-- `strings.TrimSpace(s)`: leading and trailing white space is removed. -/
def TrimSpace (s : Str) : Str :=
  (s.dropWhile IsSpace).rdropWhile IsSpace

/-! ## Package `strconv` -/

/-- The value of a decimal digit, when the character is one. -/
def digitVal (c : Char) : Option Nat :=
  if '0' ≤ c ∧ c ≤ '9' then some (c.toNat - 48) else none

/-- Reads a sequence of decimal digits, most significant first, onto the accumulator `acc`;
`none` when a character is not a digit. -/
def parseDigits (acc : Nat) : Str → Option Nat
  | [] => some acc
  | c :: cs =>
    match digitVal c with
    | none => none
    | some d => parseDigits (10 * acc + d) cs

/-- `strconv.Atoi(s)`: an optional sign followed by at least one decimal digit, denoting a value
of the range of `int` (64 bits); `none` stands for a non-nil error. -/
def Atoi (s : Str) : Option Int :=
  match s with
  | [] => none
  | c :: cs =>
    if c = '-' then
      match cs with
      | [] => none
      | _ :: _ =>
        match parseDigits 0 cs with
        | none => none
        | some n => if n ≤ 2 ^ 63 then some (- (n : Int)) else none
    else if c = '+' then
      match cs with
      | [] => none
      | _ :: _ =>
        match parseDigits 0 cs with
        | none => none
        | some n => if n < 2 ^ 63 then some (n : Int) else none
    else
      match parseDigits 0 (c :: cs) with
      | none => none
      | some n => if n < 2 ^ 63 then some (n : Int) else none

/-! ## Package `regexp`: the pattern `([a-zA-Z0-9-]+?)="([^"]+)"` -/

/-- The character class `[a-zA-Z0-9-]`. -/
def isKeyChar (c : Char) : Bool :=
  ('a' ≤ c && c ≤ 'z') || ('A' ≤ c && c ≤ 'Z') || ('0' ≤ c && c ≤ '9') || c = '-'

/-- A match of the pattern that starts at the first character of `s`, when there is one: a
non-empty run of key characters, `="`, a non-empty run of characters other than `"`, and `"`.
The run of key characters has to end at the `=` and the value at the first `"`, so the lazy
and the greedy repetition leave one candidate. -/
def matchTagAt (s : Str) : Option Str :=
  let key := s.takeWhile isKeyChar
  match key, s.dropWhile isKeyChar with
  | _ :: _, '=' :: '"' :: rest =>
    let value := rest.takeWhile (· ≠ '"')
    match value, rest.dropWhile (· ≠ '"') with
    | _ :: _, '"' :: _ => some (key ++ '=' :: '"' :: value ++ ['"'])
    | _, _ => none
  | _, _ => none

/-- Worker of `FindAllString`: `skip` counts the characters of the last match that are still to
be passed over. -/
def findAllFrom : Nat → Str → List Str
  | _, [] => []
  | skip + 1, _ :: cs => findAllFrom skip cs
  | 0, c :: cs =>
    match matchTagAt (c :: cs) with
    | some m => m :: findAllFrom (m.length - 1) cs
    | none => findAllFrom 0 cs

/-- `tagsRegExp.FindAllString(s, -1)`: the successive non-overlapping matches of the pattern,
leftmost first. -/
def FindAllString (s : Str) : List Str := findAllFrom 0 s

/-! ## Package `fmt` -/

/-- The character of a decimal digit. -/
def digitChar (d : Nat) : Char := Char.ofNat (48 + d)

/-- Worker of `formatNat`: the digits of `n` are put in front of `acc`, least significant
first; `fuel` bounds the number of digits. -/
def formatNatFrom : Nat → Nat → Str → Str
  | 0, _, acc => acc
  | fuel + 1, n, acc =>
    if n / 10 = 0 then digitChar (n % 10) :: acc
    else formatNatFrom fuel (n / 10) (digitChar (n % 10) :: acc)

/-- The decimal numeral of a natural number. -/
def formatNat (n : Nat) : Str := formatNatFrom (n + 1) n []

/-- The verb `%d` applied to an `int`: a plain decimal numeral with a minus sign for negative
values. -/
def formatInt (i : Int) : Str :=
  if i < 0 then '-' :: formatNat i.natAbs else formatNat i.natAbs

/-- The lower-case hexadecimal digit of a value below sixteen (`lowerhex`). -/
def hexChar (d : Nat) : Char :=
  if d < 10 then Char.ofNat (48 + d) else Char.ofNat (87 + d)

/-- The `k` low hexadecimal digits of `n`, most significant first. -/
def hexDigits : Nat → Nat → Str
  | 0, _ => []
  | k + 1, n => hexDigits k (n / 16) ++ [hexChar (n % 16)]

/-- `strconv.IsPrint`: Latin-1 is decided by the ranges written in the function itself, every
other code point by the tables of the package, which are the parameter `wide`. -/
def IsPrint (wide : Char → Bool) (c : Char) : Bool :=
  let n := c.toNat
  if n ≤ 0xFF then
    if 0x20 ≤ n && n ≤ 0x7E then true
    else if 0xA1 ≤ n then n != 0xAD
    else false
  else wide c

/-- One rune of a quoted string (`appendEscapedRune` with the quote `"`). -/
def escapeRune (wide : Char → Bool) (c : Char) : Str :=
  let n := c.toNat
  if c = '"' ∨ c = '\\' then ['\\', c]
  else if IsPrint wide c then [c]
  else if n = 0x07 then ['\\', 'a']
  else if n = 0x08 then ['\\', 'b']
  else if n = 0x0C then ['\\', 'f']
  else if n = 0x0A then ['\\', 'n']
  else if n = 0x0D then ['\\', 'r']
  else if n = 0x09 then ['\\', 't']
  else if n = 0x0B then ['\\', 'v']
  else if n < 0x20 ∨ n = 0x7F then '\\' :: 'x' :: hexDigits 2 n
  else if n < 0x10000 then '\\' :: 'u' :: hexDigits 4 n
  else '\\' :: 'U' :: hexDigits 8 n

/-- The verb `%q` applied to a string (`strconv.Quote`): the text between double quotes, with
Go escape sequences for the quote, the backslash and every rune that is not printable. -/
def Quote (wide : Char → Bool) (s : Str) : Str :=
  '"' :: (s.flatMap (escapeRune wide) ++ ['"'])

/-! ## Package `bufio` -/

/-- The length of a text in bytes, in UTF-8. -/
def utf8Len (s : Str) : Nat := (s.map Char.utf8Size).sum

/-- `bufio.MaxScanTokenSize`, the size of the largest buffer of a `Scanner`. -/
def MaxScanTokenSize : Nat := 64 * 1024

/-- `dropCR`: one trailing carriage return is removed. -/
def dropCR (s : Str) : Str :=
  if s.getLast? = some '\r' then s.dropLast else s

/-- Worker of `ScanLines`: `cur` is the part of the current line read so far.  A line that does
not fit the buffer with room for its newline ends the scan (`ErrTooLong`, which `Parse` does
not look at). -/
def scanFrom (cur : Str) : Str → List Str
  | [] =>
    if cur = [] then []
    else if utf8Len cur < MaxScanTokenSize then [dropCR cur] else []
  | c :: cs =>
    if c = '\n' then
      if utf8Len cur < MaxScanTokenSize then dropCR cur :: scanFrom [] cs else []
    else scanFrom (cur ++ [c]) cs

/-- The lines which the calls of `scanner.Scan()` deliver for a text, with the split function
`bufio.ScanLines` and the default buffer: the text is cut at every newline, a carriage return
in front of the newline is dropped, and a last line without newline counts when it is not
empty. -/
def ScanLines (text : Str) : List Str := scanFrom [] text

/-! ## Parse (m3u.go, lines 36-100) -/

/-- The error of line 60. -/
def errHeader : String := "Invalid m3u file format. Expected #EXTM3U file header"

/-- The error of line 70. -/
def errMetadata : String :=
  "Invalid m3u file format. Expected EXTINF metadata to contain track length and name data"

/-- The error of line 75. -/
def errLength : String := "Unable to parse length"

/-- The error of line 92. -/
def errNoTracks : String := "URI provided for playlist with no tracks"

/-- Lines 81-82: a match of the tag pattern is split at `=`; the first piece is the name of the
tag and the second piece, without its double quotes, the value. -/
def tagOfMatch (m : Str) : Tag :=
  let tagInfo := Split m '='
  ⟨tagInfo.getD 0 [], Remove (tagInfo.getD 1 []) ['"']⟩

/-- Lines 79-84: the tags of an EXTINF line from which `#EXTINF:` has been removed. -/
def tagsOfLine (line : Str) : List Tag := (FindAllString line).map tagOfMatch

/-- An assignment to a field of `playlist.Tracks[len(playlist.Tracks)-1]`. -/
def updateLast (f : Track → Track) : List Track → List Track
  | [] => []
  | [t] => [f t]
  | t :: u :: rest => t :: updateLast f (u :: rest)

/-- Lines 67-84: the track that an EXTINF line gives, or the message of the error. -/
def newTrack (line : Str) : Except String Track :=
  let line1 := Remove line "#EXTINF:".toList
  let trackInfo := Split line1 ','
  if trackInfo.length < 2 then Except.error errMetadata
  else
    match Atoi ((Split (TrimSpace (trackInfo.getD 0 [])) ' ').getD 0 []) with
    | none => Except.error errLength
    | some length =>
      Except.ok ⟨Trim (trackInfo.getD 1 []), length, [], tagsOfLine line1, []⟩

/-- The loop of lines 57-97, from a state `(onFirstLine, playlist)`, over the lines that are
left; at the end of the lines the playlist is returned with a nil error (line 99). -/
def parseLines (onFirstLine : Bool) (playlist : Playlist) : List Str → Result
  | [] => Result.ok playlist
  | line :: rest =>
    if onFirstLine && !HasPrefix line "#EXTM3U".toList then
      Result.error playlist errHeader
    else if HasPrefix line "#EXTINF".toList then
      match newTrack line with
      | Except.error msg => Result.error playlist msg
      | Except.ok track => parseLines false ⟨playlist.Tracks ++ [track]⟩ rest
    else if HasPrefix line "#EXTGRP".toList then
      let line1 := Remove line "#EXTGRP:".toList
      if playlist.Tracks = [] then Result.panic
      else
        parseLines false ⟨updateLast (fun t => { t with Group := line1 }) playlist.Tracks⟩ rest
    else if HasPrefix line "#".toList || line = [] then
      parseLines false playlist rest
    else if playlist.Tracks.length = 0 then Result.error playlist errNoTracks
    else
      parseLines false ⟨updateLast (fun t => { t with URI := Trim line }) playlist.Tracks⟩ rest

/-- `Parse`, from the opened source on: the loop starts on the first line with the zero value
of `Playlist`. -/
def Parse (lines : List Str) : Result := parseLines true ⟨[]⟩ lines

/-- `Parse` of a source that holds the text `text`. -/
def ParseText (text : Str) : Result := Parse (ScanLines text)

/-! ## Marshall and MarshallInto (m3u.go, lines 102-137) -/

/-- Lines 121-127: the tags of a track, each as `name=` and the quoted value, with one space
after every tag but the last. -/
def writeTags (wide : Char → Bool) : List Tag → Str
  | [] => []
  | [tag] => tag.Name ++ '=' :: Quote wide tag.Value
  | tag :: next :: rest =>
    tag.Name ++ '=' :: Quote wide tag.Value ++ ' ' :: writeTags wide (next :: rest)

/-- Lines 119-133: what one turn of the loop writes for a track. -/
def writeTrack (wide : Char → Bool) (track : Track) : Str :=
  "#EXTINF:".toList ++ (formatInt track.Length ++ [' ']) ++ writeTags wide track.Tags ++
    ", ".toList ++
    (if track.Group ≠ [] then
      track.Name ++ "\n#EXTGRP:".toList ++ track.Group ++ ['\n'] ++ track.URI ++ ['\n']
    else track.Name ++ ['\n'] ++ track.URI ++ ['\n'])

/-- `MarshallInto(p, into, writeHeader)`: the text written into a writer that accepts it (the
final `Flush` then returns nil). -/
def MarshallInto (wide : Char → Bool) (p : Playlist) (writeHeader : Bool) : Str :=
  (if writeHeader then "#EXTM3U\n".toList else []) ++ (p.Tracks.map (writeTrack wide)).flatten

/-- `Marshall(p)`: the content of the reader that is returned; writing into the buffer does not
fail, so the error is nil. -/
def Marshall (wide : Char → Bool) (p : Playlist) : Str := MarshallInto wide p true

/-- A `bufio.Writer` as far as `MarshallInto` sees it: the text written into it, and the error
which the writer under it reports when the text is flushed (`none` when it accepts the
text). -/
structure Writer where
  text : Str
  fail : Option String
deriving DecidableEq, Repr

/-- `MarshallInto(p, into, writeHeader)` with both effects: the writer after the call and the
error returned, which is the result of `into.Flush()` (line 136): nil when the writer holds
no text, so that nothing is passed on, and else the error of the writer under it. -/
def MarshallIntoWriter (wide : Char → Bool) (p : Playlist) (into : Writer)
    (writeHeader : Bool) : Writer × Option String :=
  ({ into with text := into.text ++ MarshallInto wide p writeHeader },
    if into.text ++ MarshallInto wide p writeHeader = [] then none else into.fail)

/-- `Marshall(p)` with both results (lines 103-111): the content of the reader returned, or
nil, and the error.  The writer is put on a new `bytes.Buffer`, whose `Write` returns no
error. -/
def MarshallResult (wide : Char → Bool) (p : Playlist) : Option Str × Option String :=
  match MarshallIntoWriter wide p ⟨[], none⟩ true with
  | (_, some err) => (none, some err)
  | (w, none) => (some w.text, none)

/-! ## Notions used in the statements -/

/-- Equality of the outcomes of `newTrack` is decidable. -/
instance : DecidableEq (Except String Track) := fun a b =>
  match a, b with
  | Except.ok x, Except.ok y => decidable_of_iff (x = y) (by simp)
  | Except.error x, Except.error y => decidable_of_iff (x = y) (by simp)
  | Except.ok _, Except.error _ => isFalse (by simp)
  | Except.error _, Except.ok _ => isFalse (by simp)

/-- The lines which the loop passes over: empty lines and lines that start with `#` but neither
with `#EXTINF` nor with `#EXTGRP`. -/
def isIgnored (line : Str) : Bool :=
  line = [] || (HasPrefix line "#".toList && !HasPrefix line "#EXTINF".toList &&
    !HasPrefix line "#EXTGRP".toList)

/-- The fields of a track which the EXTINF line fixes. -/
def metadata (t : Track) : Str × Int × List Tag := (t.Name, t.Length, t.Tags)

/-- The text of a tag: `key="value"`. -/
def tagText (key value : Str) : Str := key ++ '=' :: '"' :: (value ++ ['"'])

/-- The decimal digits. -/
def digitChars : Str := "0123456789".toList

/-- A tag which the tag pattern finds again in the text that `MarshallInto` writes for it. -/
def TagReadable (wide : Char → Bool) (tag : Tag) : Prop :=
  tag.Name ≠ [] ∧ (∀ c ∈ tag.Name, isKeyChar c = true) ∧ tag.Value ≠ [] ∧
  (∀ c ∈ tag.Value, IsPrint wide c = true ∧ c ≠ '"' ∧ c ≠ '\\' ∧ c ≠ '=' ∧ c ≠ ',') ∧
  ¬ "#EXTINF:".toList <:+: tag.Value

/-- The metadata line which `MarshallInto` writes for a track, without its newline. -/
def metaLine (wide : Char → Bool) (t : Track) : Str :=
  "#EXTINF:".toList ++ (formatInt t.Length ++ [' ']) ++ writeTags wide t.Tags ++
    ", ".toList ++ t.Name

/-- The group line which `MarshallInto` writes for a track with a group. -/
def groupLine (t : Track) : Str := "#EXTGRP:".toList ++ t.Group

/-- The lines which `MarshallInto` writes for a track. -/
def trackLines (wide : Char → Bool) (t : Track) : List Str :=
  if t.Group ≠ [] then [metaLine wide t, groupLine t, t.URI] else [metaLine wide t, t.URI]

/-- A line which the scanner gives back as it was written: no newline in it, no carriage
return at its end, and short enough for the buffer. -/
def LineScannable (l : Str) : Prop :=
  '\n' ∉ l ∧ l.getLast? ≠ some '\r' ∧ utf8Len l < MaxScanTokenSize

/-- A track which `Parse` reads back from the lines that `MarshallInto` writes for it. -/
def TrackReadable (wide : Char → Bool) (t : Track) : Prop :=
  (',' ∉ t.Name ∧ t.Name.head? ≠ some ' ' ∧ t.Name.getLast? ≠ some ' ' ∧
    ¬ "#EXTINF:".toList <:+: t.Name ∧ FindAllString t.Name = []) ∧
  (-(2 ^ 63 : Int) ≤ t.Length ∧ t.Length < 2 ^ 63) ∧
  (∀ tag ∈ t.Tags, TagReadable wide tag) ∧
  ¬ "#EXTGRP:".toList <:+: t.Group ∧
  (t.URI.head? ≠ some '#' ∧ t.URI.head? ≠ some ' ' ∧ t.URI.getLast? ≠ some ' ') ∧
  ∀ l ∈ trackLines wide t, LineScannable l

instance (wide : Char → Bool) (tag : Tag) : Decidable (TagReadable wide tag) := by
  unfold TagReadable; infer_instance

instance (l : Str) : Decidable (LineScannable l) := by
  unfold LineScannable; infer_instance

instance (wide : Char → Bool) (t : Track) : Decidable (TrackReadable wide t) := by
  unfold TrackReadable; infer_instance

/-- What `Parse` guarantees for every track it returns: the name has no comma and no space at
either end, the length is in the range of `int`, every tag has a non-empty name of key
characters and a value without `"` and `=`, and the URI has no space at either end. -/
def TrackParsed (t : Track) : Prop :=
  (',' ∉ t.Name ∧ t.Name.head? ≠ some ' ' ∧ t.Name.getLast? ≠ some ' ') ∧
  (-(2 ^ 63 : Int) ≤ t.Length ∧ t.Length < 2 ^ 63) ∧
  (∀ tag ∈ t.Tags, tag.Name ≠ [] ∧ (∀ c ∈ tag.Name, isKeyChar c = true) ∧
    '"' ∉ tag.Value ∧ '=' ∉ tag.Value) ∧
  (t.URI.head? ≠ some ' ' ∧ t.URI.getLast? ≠ some ' ')

/-- What is asked, beyond `TrackParsed`, of a track for `Parse` to read it back from the lines
written for it. -/
def TrackRewritable (wide : Char → Bool) (t : Track) : Prop :=
  (¬ "#EXTINF:".toList <:+: t.Name ∧ FindAllString t.Name = []) ∧
  (∀ tag ∈ t.Tags, tag.Value ≠ [] ∧
    (∀ c ∈ tag.Value, IsPrint wide c = true ∧ c ≠ '\\' ∧ c ≠ ',') ∧
    ¬ "#EXTINF:".toList <:+: tag.Value) ∧
  ¬ "#EXTGRP:".toList <:+: t.Group ∧
  t.URI.head? ≠ some '#' ∧
  ∀ l ∈ trackLines wide t, LineScannable l

instance (wide : Char → Bool) (t : Track) : Decidable (TrackRewritable wide t) := by
  unfold TrackRewritable; infer_instance

/-- The texts `ms` stand in the text `s` one behind the other, in this order and without
overlap. -/
def occursInOrder : List Str → Str → Prop
  | [], _ => True
  | m :: ms, s => ∃ pre rest, s = pre ++ m ++ rest ∧ occursInOrder ms rest

/-- A decimal digit. -/
def isDigit (c : Char) : Bool := '0' ≤ c && c ≤ '9'

/-- The number which a sequence of decimal digits denotes. -/
def digitsValue (ds : Str) : Nat := ds.foldl (fun acc c => 10 * acc + (c.toNat - 48)) 0

/-- The text `s` is a decimal integer, an optional sign followed by digits, and denotes `i`. -/
def Denotes (s : Str) (i : Int) : Prop :=
  ∃ ds : Str, ds ≠ [] ∧ (∀ c ∈ ds, isDigit c = true) ∧
    (((s = ds ∨ s = '+' :: ds) ∧ i = (digitsValue ds : Int)) ∨
      (s = '-' :: ds ∧ i = -(digitsValue ds : Int)))

/-- The text which line 73 gives to `Atoi`: the information segment (the first piece of the
line without `#EXTINF:`, split at the commas) without the white space around it, up to its
first space. -/
def lengthToken (line : Str) : Str :=
  (Split (TrimSpace ((Split (Remove line "#EXTINF:".toList) ',').getD 0 [])) ' ').getD 0 []

/-- What line 123 or line 126 writes for a tag, without the space: the name, `=` and the
value as `%q` quotes it. -/
def renderTag (wide : Char → Bool) (tag : Tag) : Str :=
  tag.Name ++ '=' :: Quote wide tag.Value

/-- Puts a text in front of the first piece of a split. -/
def prependFirst (cur : Str) : List Str → List Str
  | [] => [cur]
  | piece :: pieces => (cur ++ piece) :: pieces

/-- The pieces without a last piece that is empty: the text behind the last newline is a line
only when it is not empty. -/
def dropLastEmpty (pieces : List Str) : List Str :=
  if pieces.getLast? = some [] then pieces.dropLast else pieces

/-- The lines of a text as they stand in it: the pieces between the newlines, each with the
carriage return it may end in. -/
def rawLines (text : Str) : List Str := dropLastEmpty (Split text '\n')

/-- The lines of an input: the lines of the text, each without one carriage return at its
end. -/
def inputLines (text : Str) : List Str := (rawLines text).map dropCR

/-- Every line of the text is shorter than the buffer of the scanner, 65536 bytes. -/
def ShortLines (text : Str) : Prop := ∀ l ∈ rawLines text, utf8Len l < MaxScanTokenSize

instance (text : Str) : Decidable (ShortLines text) := by
  unfold ShortLines; infer_instance

/-- A line of 65536 bytes that is a location line: it is not empty and starts with `x`. -/
def longLine : Str := 'x' :: List.replicate 65535 'x'

/-- A comment line of 65536 bytes. -/
def longComment : Str := '#' :: 'x' :: List.replicate 65534 'x'

/-- A playlist file of two tracks, as lines. -/
def twoTrackLines : List Str :=
  ["#EXTM3U".toList, "#EXTINF:1,a".toList, "u".toList, "#EXTINF:2,b".toList, "v".toList]

/-- The text of a file with the given lines, each followed by a newline. -/
def textOfLines (lines : List Str) : Str := lines.flatMap (fun l => l ++ ['\n'])

/-! ## Concrete inputs -/

/-- The playlist file of the first scenario of the specification, as lines. -/
def scenarioLines : List Str :=
  ["#EXTM3U".toList, "#EXTINF:123 tvg-id=\"1\", Channel One".toList, "#EXTGRP:News".toList,
    "http://example.com/one.m3u8".toList]

/-- The track of the first scenario of the specification. -/
def scenarioTrack : Track :=
  ⟨"Channel One".toList, 123, "http://example.com/one.m3u8".toList,
    [⟨"tvg-id".toList, "1".toList⟩], "News".toList⟩

/-- The playlist of the first scenario of the specification. -/
def scenarioPlaylist : Playlist := ⟨[scenarioTrack]⟩

/-- A playlist of two tracks: the track of the first scenario and a track without tags and
group, of unknown length. -/
def twoTracks : Playlist :=
  ⟨[scenarioTrack, ⟨"Only Name".toList, -1, "file.mp3".toList, [], []⟩]⟩

/-- A playlist whose only track has a name that starts with a space. -/
def spacedPlaylist : Playlist := ⟨[⟨" a".toList, 1, "u".toList, [], []⟩]⟩

/-- A playlist file with a backslash in a tag value. -/
def backslashLines : List Str :=
  ["#EXTM3U".toList, "#EXTINF:1 k=\"a\\b\",N".toList, "u".toList]

/-- The playlist which `Parse` returns for `backslashLines`. -/
def backslashPlaylist : Playlist :=
  ⟨[⟨"N".toList, 1, "u".toList, [⟨"k".toList, "a\\b".toList⟩], []⟩]⟩

/-- A playlist file whose second EXTINF line has a length that is no number. -/
def badLengthLines : List Str :=
  ["#EXTM3U".toList, "#EXTINF:1,a".toList, "#EXTINF:x,b".toList]

/-! ## Auxiliary facts -/

theorem hasPrefix_iff (s pre : Str) : HasPrefix s pre = true ↔ ∃ t, s = pre ++ t := by
  unfold HasPrefix
  rw [List.isPrefixOf_iff_prefix]
  constructor
  · rintro ⟨t, rfl⟩; exact ⟨t, rfl⟩
  · rintro ⟨t, rfl⟩; exact ⟨t, rfl⟩

/-- The first line of a playlist with a header is passed over. -/
theorem parseLines_header (hd : Str) (rest : List Str) (pl : Playlist)
    (hhd : HasPrefix hd "#EXTM3U".toList = true) :
    parseLines true pl (hd :: rest) = parseLines false pl rest := by
  obtain ⟨t, rfl⟩ := (hasPrefix_iff _ _).mp hhd
  simp [parseLines, HasPrefix, List.isPrefixOf]

theorem parseLines_ignored (line : Str) (rest : List Str) (pl : Playlist)
    (h : isIgnored line = true) :
    parseLines false pl (line :: rest) = parseLines false pl rest := by
  unfold isIgnored at h
  rcases line with _ | ⟨c, cs⟩
  · simp [parseLines, HasPrefix, List.isPrefixOf]
  · simp only [reduceCtorEq, decide_False, Bool.false_or, Bool.and_eq_true,
      Bool.not_eq_true'] at h
    obtain ⟨⟨h1, h2⟩, h3⟩ := h
    simp only [parseLines, Bool.false_and, Bool.false_eq_true, if_false, h1, h2, h3,
      Bool.true_or, if_true]

theorem parseLines_ignored_append (pre rest : List Str) (pl : Playlist)
    (h : ∀ l ∈ pre, isIgnored l = true) :
    parseLines false pl (pre ++ rest) = parseLines false pl rest := by
  induction pre with
  | nil => rfl
  | cons l pre ih =>
    rw [List.cons_append, parseLines_ignored l _ pl (h l (List.mem_cons_self _ _))]
    exact ih (fun x hx => h x (List.mem_cons_of_mem _ hx))

theorem updateLast_length (f : Track → Track) (l : List Track) :
    (updateLast f l).length = l.length := by
  induction l with
  | nil => rfl
  | cons t l ih =>
    cases l with
    | nil => rfl
    | cons u rest => simp only [updateLast, List.length_cons] at ih ⊢; omega

theorem updateLast_map_metadata (f : Track → Track) (hf : ∀ t, metadata (f t) = metadata t)
    (l : List Track) : (updateLast f l).map metadata = l.map metadata := by
  induction l with
  | nil => rfl
  | cons t l ih =>
    cases l with
    | nil => simp [updateLast, hf]
    | cons u rest => simp only [updateLast, List.map_cons] at ih ⊢; rw [ih]

/-- The tracks of a successful run of the loop: those of the start state followed by one track
for every EXTINF line, with the metadata which `newTrack` reads from the line. -/
theorem parseLines_ok_metadata (lines : List Str) :
    ∀ (b : Bool) (pl p : Playlist), parseLines b pl lines = Result.ok p →
      ∃ made : List Track,
        List.Forall₂ (fun l t => newTrack l = Except.ok t)
          (lines.filter (fun l => HasPrefix l "#EXTINF".toList)) made ∧
        p.Tracks.map metadata = (pl.Tracks ++ made).map metadata := by
  induction lines with
  | nil =>
    intro b pl p h
    simp only [parseLines, Result.ok.injEq] at h
    subst h
    exact ⟨[], by simp, by simp⟩
  | cons line rest ih =>
    intro b pl p h
    rw [parseLines] at h
    split at h
    · cases h
    · split at h
      · rename_i hinf
        split at h
        · cases h
        · rename_i track htrack
          obtain ⟨made, hmade, hp⟩ := ih _ _ _ h
          refine ⟨track :: made, ?_, ?_⟩
          · rw [List.filter_cons_of_pos (by simpa using hinf)]
            exact List.Forall₂.cons htrack hmade
          · simpa using hp
      · rename_i hinf
        have hfil : (line :: rest).filter (fun l => HasPrefix l "#EXTINF".toList) =
            rest.filter (fun l => HasPrefix l "#EXTINF".toList) :=
          List.filter_cons_of_neg (by simpa using hinf)
        rw [hfil]
        split at h
        · split at h
          · cases h
          · obtain ⟨made, hmade, hp⟩ := ih _ _ _ h
            refine ⟨made, hmade, ?_⟩
            rw [hp, List.map_append, List.map_append]
            congr 1
            apply updateLast_map_metadata
            intro t
            rfl
        · split at h
          · exact ih _ _ _ h
          · split at h
            · cases h
            · obtain ⟨made, hmade, hp⟩ := ih _ _ _ h
              refine ⟨made, hmade, ?_⟩
              rw [hp, List.map_append, List.map_append]
              congr 1
              apply updateLast_map_metadata
              intro t
              rfl

/-- One turn of the loop either goes on with a new playlist, or returns an error together with
the playlist of the state, or panics; which of them does not depend on the lines that follow. -/
theorem parseLines_step (b : Bool) (pl : Playlist) (line : Str) :
    (∃ next, ∀ rest, parseLines b pl (line :: rest) = parseLines false next rest) ∨
    (∃ msg, ∀ rest, parseLines b pl (line :: rest) = Result.error pl msg) ∨
    (∀ rest, parseLines b pl (line :: rest) = Result.panic) := by
  by_cases h0 : (b && !HasPrefix line "#EXTM3U".toList) = true
  · exact Or.inr (Or.inl ⟨errHeader, fun rest => by rw [parseLines, if_pos h0]⟩)
  by_cases h1 : HasPrefix line "#EXTINF".toList = true
  · cases h2 : newTrack line with
    | error msg =>
      exact Or.inr (Or.inl ⟨msg, fun rest => by rw [parseLines, if_neg h0, if_pos h1, h2]⟩)
    | ok track =>
      exact Or.inl ⟨_, fun rest => by rw [parseLines, if_neg h0, if_pos h1, h2]⟩
  by_cases h2 : HasPrefix line "#EXTGRP".toList = true
  · by_cases h3 : pl.Tracks = []
    · exact Or.inr (Or.inr fun rest => by
        rw [parseLines, if_neg h0, if_neg h1, if_pos h2]; simp only [h3, if_true])
    · exact Or.inl ⟨_, fun rest => by
        rw [parseLines, if_neg h0, if_neg h1, if_pos h2]; simp only [h3, if_false]; rfl⟩
  by_cases h3 : (HasPrefix line "#".toList || decide (line = [])) = true
  · exact Or.inl ⟨pl, fun rest => by
      rw [parseLines, if_neg h0, if_neg h1, if_neg h2, if_pos h3]⟩
  by_cases h4 : pl.Tracks.length = 0
  · exact Or.inr (Or.inl ⟨errNoTracks, fun rest => by
      rw [parseLines, if_neg h0, if_neg h1, if_neg h2, if_neg h3, if_pos h4]⟩)
  · exact Or.inl ⟨_, fun rest => by
      rw [parseLines, if_neg h0, if_neg h1, if_neg h2, if_neg h3, if_neg h4]⟩

/-- An error of the loop comes from one line; the playlist returned with it is the one which
the lines in front of that line give. -/
theorem parseLines_error_split (lines : List Str) :
    ∀ (b : Bool) (pl p : Playlist) (msg : String),
      parseLines b pl lines = Result.error p msg →
      ∃ pre bad rest, lines = pre ++ bad :: rest ∧ parseLines b pl pre = Result.ok p ∧
        parseLines b pl (pre ++ [bad]) = Result.error p msg := by
  induction lines with
  | nil => intro b pl p msg h; simp [parseLines] at h
  | cons line rest ih =>
    intro b pl p msg h
    rcases parseLines_step b pl line with ⟨next, hs⟩ | ⟨m, hs⟩ | hs
    · rw [hs] at h
      obtain ⟨pre, bad, tl, hrest, hok, herr⟩ := ih _ _ _ _ h
      refine ⟨line :: pre, bad, tl, by rw [hrest]; rfl, ?_, ?_⟩
      · rw [hs]; exact hok
      · rw [List.cons_append, hs]; exact herr
    · rw [hs] at h
      cases h
      exact ⟨[], line, rest, rfl, rfl, hs []⟩
    · rw [hs] at h
      cases h

/-! ### Facts on the string functions -/

theorem removeFrom_skip (old : Str) (xs rest : Str) :
    removeFrom old xs.length (xs ++ rest) = removeFrom old 0 rest := by
  induction xs with
  | nil => rfl
  | cons x xs ih => simpa [removeFrom] using ih

/-- An occurrence at the front is removed. -/
theorem remove_front (old : Str) (hold : old ≠ []) (rest : Str) :
    Remove (old ++ rest) old = Remove rest old := by
  rcases old with _ | ⟨c, cs⟩
  · exact absurd rfl hold
  · have hp : (c :: cs).isPrefixOf (c :: (cs ++ rest)) = true := by
      rw [List.isPrefixOf_iff_prefix]; exact ⟨rest, rfl⟩
    unfold Remove
    rw [List.cons_append, removeFrom, if_pos hp]
    simpa using removeFrom_skip (c :: cs) cs rest

/-- A text without occurrence is left as it is. -/
theorem remove_of_not_infix (old : Str) (s : Str) (h : ¬ old <:+: s) : Remove s old = s := by
  unfold Remove
  induction s with
  | nil => rfl
  | cons c cs ih =>
    have hp : ¬ (old.isPrefixOf (c :: cs) = true) := by
      rw [List.isPrefixOf_iff_prefix]
      exact fun hpre => h hpre.isInfix
    rw [removeFrom, if_neg hp, ih (fun hin => h (List.infix_cons hin))]

/-- A text without a character of `old` has no occurrence of `old`. -/
theorem not_infix_of_not_mem (old s : Str) (c : Char) (hc : c ∈ old) (hs : c ∉ s) :
    ¬ old <:+: s :=
  fun h => hs (h.subset hc)

/-- Occurrences do not reach over a character which `old` does not have. -/
theorem not_infix_append_cons (old xs ys : Str) (c : Char) (hc : c ∉ old)
    (hx : ¬ old <:+: xs) (hy : ¬ old <:+: ys) : ¬ old <:+: xs ++ c :: ys := by
  induction xs with
  | nil =>
    rw [List.nil_append, List.infix_cons_iff]
    rintro (hpre | hin)
    · rcases old with _ | ⟨d, ds⟩
      · exact hx List.nil_infix
      · obtain ⟨t, ht⟩ := hpre
        simp only [List.cons_append, List.cons.injEq] at ht
        exact hc (by rw [ht.1]; exact List.mem_cons_self _ _)
    · exact hy hin
  | cons x xs ih =>
    rw [List.cons_append, List.infix_cons_iff]
    rintro (hpre | hin)
    · have hxs : (x :: xs) <+: x :: (xs ++ c :: ys) := ⟨c :: ys, rfl⟩
      rcases List.prefix_or_prefix_of_prefix hpre hxs with h1 | h1
      · exact hx h1.isInfix
      · obtain ⟨r, hr⟩ := h1
        rcases r with _ | ⟨d, ds⟩
        · rw [List.append_nil] at hr
          exact hx (by rw [← hr])
        · rw [← hr] at hpre
          have h2 : (d :: ds) <+: c :: ys := by
            have h3 := (List.prefix_append_right_inj (x :: xs)).mp
              (show (x :: xs) ++ (d :: ds) <+: (x :: xs) ++ (c :: ys) from hpre)
            exact h3
          obtain ⟨t, ht⟩ := h2
          simp only [List.cons_append, List.cons.injEq] at ht
          exact hc (by rw [← hr, ht.1]; simp)
    · exact ih (fun h => hx (List.infix_cons h)) hin

theorem split_append_sep (a b : Str) (sep : Char) (ha : sep ∉ a) :
    Split (a ++ sep :: b) sep = a :: Split b sep := by
  induction a with
  | nil => simp [Split]
  | cons c cs ih =>
    have hc : c ≠ sep := fun h => ha (by rw [h]; exact List.mem_cons_self _ _)
    rw [List.cons_append, Split, if_neg hc, ih (fun h => ha (List.mem_cons_of_mem _ h))]
    rfl

theorem split_of_not_mem (a : Str) (sep : Char) (ha : sep ∉ a) : Split a sep = [a] := by
  induction a with
  | nil => rfl
  | cons c cs ih =>
    have hc : c ≠ sep := fun h => ha (by rw [h]; exact List.mem_cons_self _ _)
    rw [Split, if_neg hc, ih (fun h => ha (List.mem_cons_of_mem _ h))]
    rfl

theorem dropWhile_eq_self_of_head (p : Char → Bool) (s : Str)
    (h : ∀ c, s.head? = some c → p c = false) : s.dropWhile p = s := by
  cases s with
  | nil => rfl
  | cons c cs => simp [List.dropWhile, h c rfl]

/-- A text that neither starts nor ends with a space is left as it is by `Trim`. -/
theorem trim_eq_self (s : Str) (h1 : s.head? ≠ some ' ') (h2 : s.getLast? ≠ some ' ') :
    Trim s = s := by
  unfold Trim
  rw [dropWhile_eq_self_of_head _ s (by
    intro c hc; simp only [decide_eq_false_iff_not]; rintro rfl; exact h1 hc)]
  rw [List.rdropWhile_eq_self_iff]
  intro hl hp
  simp only [decide_eq_true_eq] at hp
  exact h2 (by rw [List.getLast?_eq_getLast _ hl, hp])

theorem trim_space_cons (s : Str) : Trim (' ' :: s) = Trim s := by
  simp [Trim, List.dropWhile]

/-! ### Facts on the tag pattern -/

theorem findAllFrom_skip (xs rest : Str) :
    findAllFrom xs.length (xs ++ rest) = findAllFrom 0 rest := by
  induction xs with
  | nil => rfl
  | cons x xs ih => simpa [findAllFrom] using ih

theorem dropWhile_append_cons_of_neg (p : Char → Bool) (pre rest : Str) (c : Char)
    (hc : p c = false) :
    (pre ++ c :: rest).dropWhile p = pre.dropWhile p ++ c :: rest := by
  induction pre with
  | nil => simp [List.dropWhile, hc]
  | cons x xs ih =>
    cases hx : p x
    · simp [List.dropWhile, hx]
    · simpa [List.dropWhile, hx] using ih

theorem takeWhile_append_cons_of_neg (p : Char → Bool) (pre rest : Str) (c : Char)
    (hpre : ∀ x ∈ pre, p x = true) (hc : p c = false) :
    (pre ++ c :: rest).takeWhile p = pre := by
  induction pre with
  | nil => simp [List.takeWhile, hc]
  | cons x xs ih =>
    have hx : p x = true := hpre x (List.mem_cons_self _ _)
    simp only [List.cons_append, List.takeWhile, hx, List.cons.injEq, true_and]
    exact ih (fun y hy => hpre y (List.mem_cons_of_mem _ hy))

theorem dropWhile_append_cons_of_all (p : Char → Bool) (pre rest : Str) (c : Char)
    (hpre : ∀ x ∈ pre, p x = true) (hc : p c = false) :
    (pre ++ c :: rest).dropWhile p = c :: rest := by
  rw [dropWhile_append_cons_of_neg p pre rest c hc]
  have : pre.dropWhile p = [] := by
    rw [List.dropWhile_eq_nil_iff]; exact hpre
  rw [this]; rfl

/-- No match of the pattern starts in a text without double quote that is followed by a
character which is neither a key character nor `=` nor `"`. -/
theorem matchTagAt_none_of_no_quote (pre rest : Str) (c : Char) (x : Char)
    (hpre : '"' ∉ x :: pre) (hk : isKeyChar c = false) (he : c ≠ '=') (hq : c ≠ '"') :
    matchTagAt (x :: pre ++ c :: rest) = none := by
  unfold matchTagAt
  have hd : (x :: pre ++ c :: rest).dropWhile isKeyChar =
      (x :: pre).dropWhile isKeyChar ++ c :: rest :=
    dropWhile_append_cons_of_neg isKeyChar (x :: pre) rest c hk
  simp only [hd]
  have hsub : ∀ y ∈ (x :: pre).dropWhile isKeyChar, y ≠ '"' := by
    intro y hy hyq
    exact hpre (by rw [← hyq]; exact (List.dropWhile_sublist _).subset hy)
  rcases hdw : (x :: pre).dropWhile isKeyChar with _ | ⟨a, _ | ⟨b, t⟩⟩
  · simp only [List.nil_append]
    split
    · rename_i heq; simp only [List.cons.injEq] at heq; exact absurd heq.1 he
    · rfl
  · simp only [List.cons_append, List.nil_append]
    split
    · rename_i heq; simp only [List.cons.injEq] at heq; exact absurd heq.2.1 hq
    · rfl
  · simp only [List.cons_append]
    split
    · rename_i heq; simp only [List.cons.injEq] at heq
      rw [hdw] at hsub
      exact absurd heq.2.1 (hsub b (by simp))
    · rfl

/-- The search passes over a text without double quote that ends in a character which is
neither a key character nor `=` nor `"`. -/
theorem findAllFrom_skip_plain (pre rest : Str) (c : Char)
    (hpre : '"' ∉ pre) (hk : isKeyChar c = false) (he : c ≠ '=') (hq : c ≠ '"') :
    findAllFrom 0 (pre ++ c :: rest) = findAllFrom 0 rest := by
  induction pre with
  | nil =>
    have : matchTagAt (c :: rest) = none := by
      simp [matchTagAt, List.takeWhile, hk]
    simp only [List.nil_append, findAllFrom, this]
  | cons x xs ih =>
    have hm := matchTagAt_none_of_no_quote xs rest c x hpre hk he hq
    rw [List.cons_append] at hm ⊢
    simp only [findAllFrom, hm]
    exact ih (fun h => hpre (List.mem_cons_of_mem _ h))

theorem matchTagAt_tagText (key value rest : Str) (hkey : key ≠ [])
    (hkc : ∀ c ∈ key, isKeyChar c = true) (hval : value ≠ []) (hvq : '"' ∉ value) :
    matchTagAt (tagText key value ++ rest) = some (tagText key value) := by
  have e1 : tagText key value ++ rest = key ++ '=' :: ('"' :: (value ++ '"' :: rest)) := by
    simp [tagText]
  have hnq : ∀ c ∈ value, (fun c => decide (c ≠ '"')) c = true := by
    intro c hc; simp only [ne_eq, decide_not, Bool.not_eq_true', decide_eq_false_iff_not]
    rintro rfl; exact hvq hc
  rw [e1]
  unfold matchTagAt
  simp only [takeWhile_append_cons_of_neg isKeyChar key _ '=' hkc (by decide),
    dropWhile_append_cons_of_all isKeyChar key _ '=' hkc (by decide)]
  rcases key with _ | ⟨k, ks⟩
  · exact absurd rfl hkey
  · simp only [takeWhile_append_cons_of_neg (fun c => decide (c ≠ '"')) value _ '"' hnq (by decide),
      dropWhile_append_cons_of_all (fun c => decide (c ≠ '"')) value _ '"' hnq (by decide)]
    rcases value with _ | ⟨v, vs⟩
    · exact absurd rfl hval
    · simp [tagText]

/-- A tag at the front of the text is the first match, and the search goes on behind it. -/
theorem findAllFrom_tagText (key value rest : Str) (hkey : key ≠ [])
    (hkc : ∀ c ∈ key, isKeyChar c = true) (hval : value ≠ []) (hvq : '"' ∉ value) :
    findAllFrom 0 (tagText key value ++ rest) = tagText key value :: findAllFrom 0 rest := by
  have hm := matchTagAt_tagText key value rest hkey hkc hval hvq
  rcases hk : key with _ | ⟨k, ks⟩
  · exact absurd hk hkey
  · rw [hk] at hm
    have e : tagText (k :: ks) value ++ rest = k :: (ks ++ '=' :: '"' :: (value ++ ['"']) ++ rest) := by
      simp [tagText]
    rw [e] at hm ⊢
    simp only [findAllFrom, hm]
    congr 1
    have hl : (tagText (k :: ks) value).length - 1 = (ks ++ '=' :: '"' :: (value ++ ['"'])).length := by
      simp [tagText]
    rw [hl]
    exact findAllFrom_skip _ rest

/-- A match `key="value"` gives the tag `(key, value)` when neither has a `=`. -/
theorem tagOfMatch_tagText (key value : Str) (hke : '=' ∉ key) (hve : '=' ∉ value)
    (hvq : '"' ∉ value) : tagOfMatch (tagText key value) = ⟨key, value⟩ := by
  have hs : Split (tagText key value) '=' = [key, '"' :: (value ++ ['"'])] := by
    unfold tagText
    rw [split_append_sep key _ '=' hke, split_of_not_mem]
    simp only [List.mem_cons, List.mem_append, List.mem_singleton, not_or]
    exact ⟨by decide, hve, by decide⟩
  unfold tagOfMatch
  simp only [hs, List.getD_cons_zero, List.getD_cons_succ, Tag.mk.injEq, true_and]
  have h1 : Remove ('"' :: (value ++ ['"'])) ['"'] = Remove (value ++ ['"']) ['"'] :=
    remove_front ['"'] (by simp) _
  rw [h1]
  unfold Remove
  clear hs h1 hve
  induction value with
  | nil => simp [removeFrom, List.isPrefixOf]
  | cons v vs ih =>
    have hv : v ≠ '"' := fun h => hvq (by rw [h]; exact List.mem_cons_self _ _)
    have hp : ¬ (['"'].isPrefixOf (v :: (vs ++ ['"'])) = true) := by
      simp [List.isPrefixOf, Ne.symm hv]
    rw [List.cons_append, removeFrom, if_neg hp,
      ih (fun h => hvq (List.mem_cons_of_mem _ h))]

/-! ### Facts on numerals -/

theorem digitChar_mem : ∀ d, d < 10 → digitChar d ∈ digitChars := by decide

theorem digitVal_digitChar : ∀ d, d < 10 → digitVal (digitChar d) = some d := by decide

theorem formatNatFrom_spec (fuel : Nat) :
    ∀ n acc, n < fuel → ∃ ds, formatNatFrom fuel n acc = ds ++ acc ∧ ds ≠ [] ∧
      (∀ c ∈ ds, c ∈ digitChars) ∧
      ∀ a rest, parseDigits a (ds ++ rest) = parseDigits (a * 10 ^ ds.length + n) rest := by
  induction fuel with
  | zero => intro n acc h; omega
  | succ fuel ih =>
    intro n acc hn
    have hmod : n % 10 < 10 := Nat.mod_lt _ (by decide)
    by_cases hq : n / 10 = 0
    · refine ⟨[digitChar (n % 10)], by simp [formatNatFrom, hq], by simp, ?_, ?_⟩
      · intro c hc
        rw [List.mem_singleton] at hc
        rw [hc]; exact digitChar_mem _ hmod
      · intro a rest
        have : 10 * a + n % 10 = a * 10 ^ 1 + n := by omega
        simp only [List.singleton_append, parseDigits, digitVal_digitChar _ hmod,
          List.length_singleton, this]
        rfl
    · obtain ⟨ds, hds, hne, hdig, hparse⟩ := ih (n / 10) (digitChar (n % 10) :: acc) (by omega)
      refine ⟨ds ++ [digitChar (n % 10)], by simp [formatNatFrom, hq, hds], by simp, ?_, ?_⟩
      · intro c hc
        rw [List.mem_append, List.mem_singleton] at hc
        rcases hc with hc | hc
        · exact hdig c hc
        · rw [hc]; exact digitChar_mem _ hmod
      · intro a rest
        rw [List.append_assoc, hparse]
        simp only [List.singleton_append, parseDigits, digitVal_digitChar _ hmod,
          List.length_append, List.length_singleton]
        congr 1
        rw [pow_succ, ← Nat.mul_assoc]
        generalize a * 10 ^ ds.length = y
        omega

theorem formatNat_spec (n : Nat) : formatNat n ≠ [] ∧ (∀ c ∈ formatNat n, c ∈ digitChars) ∧
    parseDigits 0 (formatNat n) = some n := by
  obtain ⟨ds, hds, hne, hdig, hparse⟩ := formatNatFrom_spec (n + 1) n [] (by omega)
  rw [List.append_nil] at hds
  unfold formatNat
  rw [hds]
  refine ⟨hne, hdig, ?_⟩
  have := hparse 0 []
  simpa [parseDigits] using this

/-- The characters of a numeral written with `%d`. -/
theorem formatInt_chars (i : Int) : formatInt i ≠ [] ∧
    ∀ c ∈ formatInt i, c ∈ '-' :: digitChars := by
  obtain ⟨hne, hdig, -⟩ := formatNat_spec i.natAbs
  unfold formatInt
  split
  · exact ⟨by simp, fun c hc => by
      rcases List.mem_cons.mp hc with h | h
      · rw [h]; exact List.mem_cons_self _ _
      · exact List.mem_cons_of_mem _ (hdig c h)⟩
  · exact ⟨hne, fun c hc => List.mem_cons_of_mem _ (hdig c hc)⟩

/-- Reading back what `%d` writes gives the number, for the numbers of the type `int`. -/
theorem atoi_formatInt (i : Int) (hlo : -(2 ^ 63 : Int) ≤ i) (hhi : i < 2 ^ 63) :
    Atoi (formatInt i) = some i := by
  obtain ⟨hne, hdig, hparse⟩ := formatNat_spec i.natAbs
  unfold formatInt
  split
  · rename_i hneg
    rcases hf : formatNat i.natAbs with _ | ⟨d, ds⟩
    · exact absurd hf hne
    · rw [hf] at hparse
      have hb : i.natAbs ≤ 2 ^ 63 := by omega
      simp only [Atoi, if_true, hparse, hb]
      congr 1
      omega
  · rename_i hpos
    rcases hf : formatNat i.natAbs with _ | ⟨d, ds⟩
    · exact absurd hf hne
    · have hd : d ∈ digitChars := hdig d (by rw [hf]; exact List.mem_cons_self _ _)
      have h1 : d ≠ '-' := by rintro rfl; revert hd; decide
      have h2 : d ≠ '+' := by rintro rfl; revert hd; decide
      rw [hf] at hparse
      have hb : i.natAbs < 2 ^ 63 := by omega
      simp only [Atoi, if_neg h1, if_neg h2, hparse, hb, if_true]
      congr 1
      omega

/-- The first token of the information segment: what stands in front of the first space. -/
theorem first_token (tok r : Str) (hne : tok ≠ []) (hns : ∀ c ∈ tok, IsSpace c = false) :
    (Split (TrimSpace (tok ++ ' ' :: r)) ' ').getD 0 [] = tok := by
  have hsp : ' ' ∉ tok := fun h => by have := hns _ h; revert this; decide
  have hhead : (tok ++ ' ' :: r).dropWhile IsSpace = tok ++ ' ' :: r := by
    rcases tok with _ | ⟨t, ts⟩
    · exact absurd rfl hne
    · simp [List.dropWhile, hns t (List.mem_cons_self _ _)]
  have htok : tok.rdropWhile IsSpace = tok := by
    rw [List.rdropWhile_eq_self_iff]
    intro hl
    rw [hns _ (List.getLast_mem hl)]
    simp
  have key : ∀ b : Str, ∃ r1, (tok ++ b).rdropWhile IsSpace = tok ++ r1 ∧ r1 <+: b := by
    intro b
    induction b using List.reverseRecOn with
    | nil => exact ⟨[], by rw [List.append_nil, htok], List.prefix_refl _⟩
    | append_singleton b x ih =>
      obtain ⟨r1, h1, h2⟩ := ih
      by_cases hx : IsSpace x = true
      · refine ⟨r1, ?_, h2.trans (List.prefix_append _ _)⟩
        rw [← List.append_assoc, List.rdropWhile_concat_pos _ _ _ hx, h1]
      · refine ⟨b ++ [x], ?_, List.prefix_refl _⟩
        rw [← List.append_assoc, List.rdropWhile_concat_neg _ _ _ hx]
  obtain ⟨r1, h1, h2⟩ := key (' ' :: r)
  unfold TrimSpace
  rw [hhead, h1]
  rcases r1 with _ | ⟨x, xs⟩
  · rw [List.append_nil, split_of_not_mem tok ' ' hsp]; rfl
  · obtain ⟨t, ht⟩ := h2
    simp only [List.cons_append, List.cons.injEq] at ht
    rw [ht.1, split_append_sep tok xs ' ' hsp]; rfl

/-! ### What `MarshallInto` writes for a track, read back by `Parse` -/

/-- A value of printable characters without quote and backslash is quoted as it is. -/
theorem quote_plain (wide : Char → Bool) (v : Str)
    (h : ∀ c ∈ v, IsPrint wide c = true ∧ c ≠ '"' ∧ c ≠ '\\') :
    Quote wide v = '"' :: (v ++ ['"']) := by
  have : v.flatMap (escapeRune wide) = v := by
    induction v with
    | nil => rfl
    | cons c cs ih =>
      obtain ⟨h1, h2, h3⟩ := h c (List.mem_cons_self _ _)
      rw [List.flatMap_cons, ih (fun x hx => h x (List.mem_cons_of_mem _ hx))]
      simp [escapeRune, h1, h2, h3]
  unfold Quote
  rw [this]

theorem writeTag_eq (wide : Char → Bool) (tag : Tag) (h : TagReadable wide tag) :
    tag.Name ++ '=' :: Quote wide tag.Value = tagText tag.Name tag.Value := by
  rw [quote_plain wide tag.Value (fun c hc => ⟨(h.2.2.2.1 c hc).1, (h.2.2.2.1 c hc).2.1,
    (h.2.2.2.1 c hc).2.2.1⟩)]
  rfl

theorem keyChar_ne (c : Char) (h : isKeyChar c = true) :
    c ≠ '=' ∧ c ≠ ',' ∧ c ≠ '#' ∧ c ≠ '"' ∧ c ≠ ' ' := by
  refine ⟨?_, ?_, ?_, ?_, ?_⟩ <;> (rintro rfl; revert h; decide)

theorem tagOfMatch_readable (wide : Char → Bool) (tag : Tag) (h : TagReadable wide tag) :
    tagOfMatch (tagText tag.Name tag.Value) = tag :=
  tagOfMatch_tagText tag.Name tag.Value
    (fun hm => (keyChar_ne _ (h.2.1 _ hm)).1 rfl)
    (fun hm => (h.2.2.2.1 _ hm).2.2.2.1 rfl)
    (fun hm => (h.2.2.2.1 _ hm).2.1 rfl)

/-- The tags which the pattern finds in the tags written by `MarshallInto`, followed by the
separator and the name. -/
theorem findAll_writeTags (wide : Char → Bool) (name : Str) (tags : List Tag)
    (h : ∀ tag ∈ tags, TagReadable wide tag) :
    findAllFrom 0 (writeTags wide tags ++ ',' :: ' ' :: name) =
      tags.map (fun tag => tagText tag.Name tag.Value) ++ findAllFrom 0 name := by
  have hsep : findAllFrom 0 (',' :: ' ' :: name) = findAllFrom 0 name :=
    findAllFrom_skip_plain [','] name ' ' (by decide) (by decide) (by decide) (by decide)
  induction tags with
  | nil => simpa [writeTags] using hsep
  | cons tag rest ih =>
    have ht := h tag (List.mem_cons_self _ _)
    have hfind := fun r => findAllFrom_tagText tag.Name tag.Value r ht.1 ht.2.1 ht.2.2.1
      (fun hm => (ht.2.2.2.1 _ hm).2.1 rfl)
    cases rest with
    | nil =>
      simp only [writeTags, writeTag_eq wide tag ht, List.map_cons, List.map_nil,
        List.cons_append, List.nil_append]
      rw [hfind, hsep]
    | cons next rest =>
      have e : writeTags wide (tag :: next :: rest) ++ ',' :: ' ' :: name =
          tagText tag.Name tag.Value ++
            ' ' :: (writeTags wide (next :: rest) ++ ',' :: ' ' :: name) := by
        rw [writeTags, ← writeTag_eq wide tag ht]
        simp
      rw [e, hfind]
      have hsp : findAllFrom 0 (' ' :: (writeTags wide (next :: rest) ++ ',' :: ' ' :: name)) =
          findAllFrom 0 (writeTags wide (next :: rest) ++ ',' :: ' ' :: name) :=
        findAllFrom_skip_plain [] _ ' ' (by simp) (by decide) (by decide) (by decide)
      rw [hsp, ih (fun x hx => h x (List.mem_cons_of_mem _ hx))]
      rfl

/-- The characters which `MarshallInto` writes for the tags: no comma. -/
theorem writeTags_no_comma (wide : Char → Bool) (tags : List Tag)
    (h : ∀ tag ∈ tags, TagReadable wide tag) : ',' ∉ writeTags wide tags := by
  have one : ∀ tag, TagReadable wide tag → ',' ∉ tagText tag.Name tag.Value := by
    intro tag ht hm
    simp only [tagText, List.mem_append, List.mem_cons, List.mem_singleton, List.not_mem_nil,
      or_false] at hm
    rcases hm with hm | hm | hm | hm | hm
    · exact (keyChar_ne _ (ht.2.1 _ hm)).2.1 rfl
    · revert hm; decide
    · revert hm; decide
    · exact (ht.2.2.2.1 _ hm).2.2.2.2 rfl
    · revert hm; decide
  induction tags with
  | nil => simp [writeTags]
  | cons tag rest ih =>
    have ht := h tag (List.mem_cons_self _ _)
    cases rest with
    | nil =>
      rw [writeTags, writeTag_eq wide tag ht]
      exact one tag ht
    | cons next rest =>
      have e : writeTags wide (tag :: next :: rest) =
          tagText tag.Name tag.Value ++ ' ' :: writeTags wide (next :: rest) := by
        rw [writeTags, ← writeTag_eq wide tag ht]
      rw [e]
      intro hm
      rcases List.mem_append.mp hm with hm | hm
      · exact one tag ht hm
      · rcases List.mem_cons.mp hm with hm | hm
        · revert hm; decide
        · exact ih (fun x hx => h x (List.mem_cons_of_mem _ hx)) hm

theorem not_infix_nil (old : Str) (h : old ≠ []) : ¬ old <:+: [] := by
  intro hin
  exact h (List.eq_nil_of_infix_nil hin)

/-- The tags written by `MarshallInto` hold no `#EXTINF:`. -/
theorem writeTags_no_extinf (wide : Char → Bool) (tags : List Tag)
    (h : ∀ tag ∈ tags, TagReadable wide tag) :
    ¬ "#EXTINF:".toList <:+: writeTags wide tags := by
  have hnil : ¬ "#EXTINF:".toList <:+: [] := not_infix_nil _ (by decide)
  have one : ∀ tag, TagReadable wide tag →
      ¬ "#EXTINF:".toList <:+: tagText tag.Name tag.Value := by
    intro tag ht
    unfold tagText
    refine not_infix_append_cons _ _ _ '=' (by decide) ?_ ?_
    · exact not_infix_of_not_mem _ _ '#' (by decide)
        (fun hm => (keyChar_ne _ (ht.2.1 _ hm)).2.2.1 rfl)
    · exact not_infix_append_cons _ [] _ '"' (by decide) hnil
        (not_infix_append_cons _ _ [] '"' (by decide) ht.2.2.2.2 hnil)
  induction tags with
  | nil => exact hnil
  | cons tag rest ih =>
    have ht := h tag (List.mem_cons_self _ _)
    cases rest with
    | nil =>
      rw [writeTags, writeTag_eq wide tag ht]
      exact one tag ht
    | cons next rest =>
      have e : writeTags wide (tag :: next :: rest) =
          tagText tag.Name tag.Value ++ ' ' :: writeTags wide (next :: rest) := by
        rw [writeTags, ← writeTag_eq wide tag ht]
      rw [e]
      exact not_infix_append_cons _ _ _ ' ' (by decide) (one tag ht)
        (ih (fun x hx => h x (List.mem_cons_of_mem _ hx)))

theorem numeral_chars : ∀ c ∈ '-' :: digitChars,
    IsSpace c = false ∧ c ≠ '"' ∧ c ≠ ',' ∧ c ≠ '#' := by decide

/-- The metadata line written for a readable track gives the track back, without URI and
group. -/
theorem newTrack_metaLine (wide : Char → Bool) (t : Track) (h : TrackReadable wide t) :
    newTrack (metaLine wide t) = Except.ok ⟨t.Name, t.Length, [], t.Tags, []⟩ := by
  obtain ⟨⟨hn1, hn2, hn3, hn4, hn5⟩, ⟨hl1, hl2⟩, htags, -, -, -⟩ := h
  obtain ⟨hne, hchars⟩ := formatInt_chars t.Length
  have hnil : ¬ "#EXTINF:".toList <:+: [] := not_infix_nil _ (by decide)
  let info := formatInt t.Length ++ ' ' :: writeTags wide t.Tags
  let body := formatInt t.Length ++ ' ' :: (writeTags wide t.Tags ++ ',' :: ' ' :: t.Name)
  have hline : metaLine wide t = "#EXTINF:".toList ++ body := by
    simp [metaLine, body]
  have hbody : body = info ++ ',' :: (' ' :: t.Name) := by
    simp [body, info]
  have hnoinf : ¬ "#EXTINF:".toList <:+: body := by
    refine not_infix_append_cons _ _ _ ' ' (by decide) ?_ ?_
    · exact not_infix_of_not_mem _ _ '#' (by decide)
        (fun hm => (numeral_chars _ (hchars _ hm)).2.2.2 rfl)
    · refine not_infix_append_cons _ _ _ ',' (by decide)
        (writeTags_no_extinf wide t.Tags htags) ?_
      exact not_infix_append_cons _ [] _ ' ' (by decide) hnil hn4
  have hrem : Remove (metaLine wide t) "#EXTINF:".toList = body := by
    rw [hline, remove_front _ (by decide), remove_of_not_infix _ _ hnoinf]
  have hinfo : ',' ∉ info := by
    intro hm
    rcases List.mem_append.mp hm with hm | hm
    · exact (numeral_chars _ (hchars _ hm)).2.2.1 rfl
    · rcases List.mem_cons.mp hm with hm | hm
      · revert hm; decide
      · exact writeTags_no_comma wide t.Tags htags hm
  have hsp : ',' ∉ (' ' :: t.Name) := by
    intro hm
    rcases List.mem_cons.mp hm with hm | hm
    · revert hm; decide
    · exact hn1 hm
  have hsplit : Split body ',' = [info, ' ' :: t.Name] := by
    rw [hbody, split_append_sep info _ ',' hinfo, split_of_not_mem _ ',' hsp]
  have htok : (Split (TrimSpace info) ' ').getD 0 [] = formatInt t.Length :=
    first_token _ _ hne (fun c hc => (numeral_chars _ (hchars _ hc)).1)
  have hfind : FindAllString body = t.Tags.map (fun tag => tagText tag.Name tag.Value) := by
    unfold FindAllString at hn5 ⊢
    have h1 : findAllFrom 0 body =
        findAllFrom 0 (writeTags wide t.Tags ++ ',' :: ' ' :: t.Name) :=
      findAllFrom_skip_plain _ _ ' '
        (fun hm => (numeral_chars _ (hchars _ hm)).2.1 rfl) (by decide) (by decide) (by decide)
    rw [h1, findAll_writeTags wide t.Name t.Tags htags, hn5, List.append_nil]
  have htagsOf : tagsOfLine body = t.Tags := by
    unfold tagsOfLine
    rw [hfind, List.map_map]
    calc t.Tags.map (tagOfMatch ∘ fun tag => tagText tag.Name tag.Value)
        = t.Tags.map id := List.map_congr_left (fun tag htag =>
            tagOfMatch_readable wide tag (htags tag htag))
      _ = t.Tags := List.map_id _
  simp only [newTrack, hrem, hsplit, List.length_cons, List.length_nil, List.getD_cons_zero,
    List.getD_cons_succ, htok, atoi_formatInt t.Length hl1 hl2, htagsOf, trim_space_cons,
    trim_eq_self t.Name hn2 hn3]
  rfl

theorem updateLast_concat (f : Track → Track) (ts : List Track) (t : Track) :
    updateLast f (ts ++ [t]) = ts ++ [f t] := by
  induction ts with
  | nil => rfl
  | cons u us ih =>
    cases us with
    | nil => rfl
    | cons v vs =>
      simp only [List.cons_append, updateLast] at ih ⊢
      exact congrArg (u :: ·) ih

theorem hasPrefix_false_of_head (s pre : Str) (c : Char) (hpre : pre.head? = some c)
    (hs : s.head? ≠ some c) : HasPrefix s pre = false := by
  cases h : HasPrefix s pre
  · rfl
  · obtain ⟨t, rfl⟩ := (hasPrefix_iff _ _).mp h
    rcases pre with _ | ⟨d, ds⟩
    · cases hpre
    · simp only [List.head?_cons, Option.some.injEq] at hpre
      subst hpre
      simp at hs

/-- The loop reads the lines written for a readable track as that track. -/
theorem parseLines_trackLines (wide : Char → Bool) (t : Track) (h : TrackReadable wide t)
    (pl : Playlist) (rest : List Str) :
    parseLines false pl (trackLines wide t ++ rest) =
      parseLines false ⟨pl.Tracks ++ [t]⟩ rest := by
  have hmeta := newTrack_metaLine wide t h
  obtain ⟨-, -, -, hg, ⟨hu1, hu2, hu3⟩, -⟩ := h
  have hstart : ∀ more, parseLines false pl (metaLine wide t :: more) =
      parseLines false ⟨pl.Tracks ++ [⟨t.Name, t.Length, [], t.Tags, []⟩]⟩ more := by
    intro more
    have hp : HasPrefix (metaLine wide t) "#EXTINF".toList = true := by
      rw [hasPrefix_iff]
      exact ⟨':' :: ((formatInt t.Length ++ [' ']) ++ writeTags wide t.Tags ++
        ", ".toList ++ t.Name), by simp [metaLine]⟩
    rw [parseLines]
    simp only [Bool.false_and, Bool.false_eq_true, if_false, hp, if_true, hmeta]
  have huri : ∀ (ts : List Track) (u : Track), u.URI = [] →
      parseLines false ⟨ts ++ [u]⟩ (t.URI :: rest) =
        parseLines false ⟨ts ++ [{ u with URI := t.URI }]⟩ rest := by
    intro ts u hu
    by_cases he : t.URI = []
    · rw [he, parseLines_ignored [] rest _ (by decide)]
      cases u
      simp only at hu
      rw [hu]
    · have h1 := hasPrefix_false_of_head t.URI "#EXTINF".toList '#' rfl hu1
      have h2 := hasPrefix_false_of_head t.URI "#EXTGRP".toList '#' rfl hu1
      have h3 := hasPrefix_false_of_head t.URI "#".toList '#' rfl hu1
      rw [parseLines]
      simp only [Bool.false_and, Bool.false_eq_true, if_false, h1, h2, h3, he, decide_False,
        Bool.or_self, List.length_append, List.length_singleton, Nat.add_one_ne_zero,
        updateLast_concat, trim_eq_self t.URI hu2 hu3]
  unfold trackLines
  split
  · rename_i hgrp
    simp only [List.cons_append, List.nil_append]
    rw [hstart]
    have hp1 : HasPrefix (groupLine t) "#EXTINF".toList = false := by
      simp [groupLine, HasPrefix, List.isPrefixOf]
    have hp2 : HasPrefix (groupLine t) "#EXTGRP".toList = true := by
      rw [hasPrefix_iff]
      exact ⟨':' :: t.Group, by simp [groupLine]⟩
    have hrem : Remove (groupLine t) "#EXTGRP:".toList = t.Group := by
      unfold groupLine
      rw [remove_front _ (by decide), remove_of_not_infix _ _ hg]
    rw [parseLines]
    simp only [Bool.false_and, Bool.false_eq_true, if_false, hp1, hp2, if_true, hrem,
      List.append_eq_nil, List.cons_ne_self, and_false, reduceCtorEq, updateLast_concat]
    rw [huri _ _ rfl]
  · rename_i hgrp
    simp only [List.cons_append, List.nil_append]
    rw [hstart, huri _ _ rfl]
    simp only [ne_eq, not_not] at hgrp
    cases t
    simp only at hgrp
    simp only [hgrp]

/-! ### The scanner on the text written by `MarshallInto` -/

theorem dropCR_eq_self (l : Str) (h : l.getLast? ≠ some '\r') : dropCR l = l := by
  unfold dropCR
  rw [if_neg h]

theorem scanFrom_line (l : Str) : ∀ (cur rest : Str), '\n' ∉ l →
    utf8Len (cur ++ l) < MaxScanTokenSize →
    scanFrom cur (l ++ '\n' :: rest) = dropCR (cur ++ l) :: scanFrom [] rest := by
  induction l with
  | nil =>
    intro cur rest _ hlen
    rw [List.append_nil] at hlen
    simp only [List.nil_append, scanFrom, if_true, hlen, List.append_nil]
  | cons c cs ih =>
    intro cur rest hnl hlen
    have hc : c ≠ '\n' := fun h => hnl (by rw [h]; exact List.mem_cons_self _ _)
    have e : cur ++ c :: cs = (cur ++ [c]) ++ cs := by simp
    rw [List.cons_append, scanFrom, if_neg hc, e,
      ih (cur ++ [c]) rest (fun h => hnl (List.mem_cons_of_mem _ h)) (by rw [← e]; exact hlen)]

/-- The scanner gives back the lines of a text in which every line is followed by a newline. -/
theorem scanLines_lines (lines : List Str) (h : ∀ l ∈ lines, LineScannable l) :
    ScanLines (lines.flatMap (fun l => l ++ ['\n'])) = lines := by
  unfold ScanLines
  induction lines with
  | nil => rfl
  | cons l ls ih =>
    obtain ⟨h1, h2, h3⟩ := h l (List.mem_cons_self _ _)
    rw [List.flatMap_cons, List.append_assoc, List.singleton_append,
      scanFrom_line l [] _ h1 (by simpa using h3), ih (fun x hx => h x (List.mem_cons_of_mem _ hx)),
      List.nil_append, dropCR_eq_self l h2]

theorem writeTrack_lines (wide : Char → Bool) (t : Track) :
    writeTrack wide t = (trackLines wide t).flatMap (fun l => l ++ ['\n']) := by
  unfold writeTrack trackLines
  split <;> simp [metaLine, groupLine]

/-- The text which `MarshallInto` writes with the header, as lines. -/
theorem marshallInto_lines (wide : Char → Bool) (p : Playlist) :
    MarshallInto wide p true =
      ("#EXTM3U".toList :: p.Tracks.flatMap (trackLines wide)).flatMap
        (fun l => l ++ ['\n']) := by
  have : ∀ ts : List Track, (ts.map (writeTrack wide)).flatten =
      (ts.flatMap (trackLines wide)).flatMap (fun l => l ++ ['\n']) := by
    intro ts
    induction ts with
    | nil => rfl
    | cons t ts ih =>
      rw [List.map_cons, List.flatten_cons, ih, writeTrack_lines, List.flatMap_cons,
        List.flatMap_append]
  unfold MarshallInto
  rw [this]
  simp

theorem parseLines_tracks (wide : Char → Bool) (ts : List Track)
    (h : ∀ t ∈ ts, TrackReadable wide t) :
    ∀ pl : Playlist, parseLines false pl (ts.flatMap (trackLines wide)) =
      Result.ok ⟨pl.Tracks ++ ts⟩ := by
  induction ts with
  | nil => intro pl; simp [parseLines]
  | cons t ts ih =>
    intro pl
    rw [List.flatMap_cons, parseLines_trackLines wide t (h t (List.mem_cons_self _ _)),
      ih (fun x hx => h x (List.mem_cons_of_mem _ hx))]
    simp

/-! ### The track of an EXTINF line -/

/-- What an accepted EXTINF line fixes: the pieces between the commas are at least two, the
first token of the first piece is the length, the second piece without the spaces around it is
the name, and the tags are those of the whole line without `#EXTINF:`. -/
theorem newTrack_ok (line : Str) (track : Track) (h : newTrack line = Except.ok track) :
    2 ≤ (Split (Remove line "#EXTINF:".toList) ',').length ∧
    Atoi ((Split (TrimSpace ((Split (Remove line "#EXTINF:".toList) ',').getD 0 [])) ' ').getD
      0 []) = some track.Length ∧
    track.Name = Trim ((Split (Remove line "#EXTINF:".toList) ',').getD 1 []) ∧
    track.Tags = tagsOfLine (Remove line "#EXTINF:".toList) ∧
    track.URI = [] ∧ track.Group = [] := by
  unfold newTrack at h
  simp only at h
  split at h
  · cases h
  · rename_i hlen
    split at h
    · cases h
    · rename_i n hn
      simp only [Except.ok.injEq] at h
      subst h
      exact ⟨by omega, hn, rfl, rfl, rfl, rfl⟩

/-- The tags found in a text that starts with pairs `key="value"`, each after one space. -/
theorem findAll_pairs (pairs : List (Str × Str)) (rest : Str)
    (h : ∀ kv ∈ pairs, (kv.1 ≠ [] ∧ ∀ c ∈ kv.1, isKeyChar c = true) ∧
      kv.2 ≠ [] ∧ '"' ∉ kv.2) :
    findAllFrom 0 (pairs.flatMap (fun kv => ' ' :: tagText kv.1 kv.2) ++ rest) =
      pairs.map (fun kv => tagText kv.1 kv.2) ++ findAllFrom 0 rest := by
  induction pairs with
  | nil => rfl
  | cons kv pairs ih =>
    obtain ⟨⟨h1, h2⟩, h3, h4⟩ := h kv (List.mem_cons_self _ _)
    have hsp : ∀ r : Str, findAllFrom 0 (' ' :: r) = findAllFrom 0 r := fun r =>
      findAllFrom_skip_plain [] r ' ' (by simp) (by decide) (by decide) (by decide)
    rw [List.flatMap_cons, List.append_assoc, List.cons_append, hsp,
      findAllFrom_tagText kv.1 kv.2 _ h1 h2 h3 h4,
      ih (fun x hx => h x (List.mem_cons_of_mem _ hx))]
    rfl

/-! ### What every parsed track satisfies -/

theorem trim_head (s : Str) : (Trim s).head? ≠ some ' ' := by
  unfold Trim
  intro h
  obtain ⟨t, ht⟩ := List.rdropWhile_prefix (fun c : Char => decide (c = ' '))
    (s.dropWhile (· = ' '))
  rcases hr : List.rdropWhile (fun c : Char => decide (c = ' ')) (s.dropWhile (· = ' '))
    with _ | ⟨x, xs⟩
  · rw [hr] at h; cases h
  · rw [hr] at h ht
    simp only [List.head?_cons, Option.some.injEq] at h
    have h2 := List.head?_dropWhile_not (fun c : Char => decide (c = ' ')) s
    rw [← ht] at h2
    simp [h] at h2

theorem trim_last (s : Str) : (Trim s).getLast? ≠ some ' ' := by
  unfold Trim
  intro h
  have hne : List.rdropWhile (fun c : Char => decide (c = ' ')) (s.dropWhile (· = ' ')) ≠ [] := by
    intro hnil; rw [hnil] at h; cases h
  have h2 := List.rdropWhile_last_not (fun c : Char => decide (c = ' ')) _ hne
  rw [List.getLast?_eq_getLast _ hne, Option.some.injEq] at h
  rw [h] at h2
  simp at h2

theorem trim_subset (s : Str) : ∀ c ∈ Trim s, c ∈ s := by
  intro c hc
  unfold Trim at hc
  exact (List.dropWhile_sublist _).subset
    ((List.rdropWhile_prefix (fun c : Char => decide (c = ' ')) _).subset hc)

theorem split_pieces (sep : Char) (s : Str) : ∀ piece ∈ Split s sep, sep ∉ piece := by
  induction s with
  | nil => intro piece hp; simp [Split] at hp; rw [hp]; simp
  | cons c cs ih =>
    intro piece hp
    rw [Split] at hp
    split at hp
    · rcases List.mem_cons.mp hp with h | h
      · rw [h]; simp
      · exact ih piece h
    · rename_i hc
      rcases hs : Split cs sep with _ | ⟨first, more⟩
      · rw [hs] at hp
        simp only [consFirst, List.mem_singleton] at hp
        rw [hp]
        simpa using Ne.symm hc
      · rw [hs] at hp ih
        simp only [consFirst, List.mem_cons] at hp
        rcases hp with h | h
        · rw [h]
          intro hm
          rcases List.mem_cons.mp hm with h1 | h1
          · exact hc h1.symm
          · exact ih first (List.mem_cons_self _ _) h1
        · exact ih piece (List.mem_cons_of_mem _ h)

theorem getD_split_no_sep (sep : Char) (s : Str) (i : Nat) :
    sep ∉ (Split s sep).getD i [] := by
  by_cases hi : i < (Split s sep).length
  · rw [List.getD_eq_getElem _ _ hi]
    exact split_pieces sep s _ (List.getElem_mem _)
  · rw [List.getD_eq_default _ _ (by omega)]
    simp

theorem atoi_range (s : Str) (i : Int) (h : Atoi s = some i) :
    -(2 ^ 63 : Int) ≤ i ∧ i < 2 ^ 63 := by
  unfold Atoi at h
  split at h
  · cases h
  · split at h
    · split at h
      · cases h
      · split at h
        · cases h
        · split at h
          · simp only [Option.some.injEq] at h; omega
          · cases h
    · split at h
      · split at h
        · cases h
        · split at h
          · cases h
          · split at h
            · simp only [Option.some.injEq] at h; omega
            · cases h
      · split at h
        · cases h
        · split at h
          · simp only [Option.some.injEq] at h; omega
          · cases h

/-- A match of the tag pattern is a text `key="value"` with a non-empty key of key
characters. -/
theorem matchTagAt_some (s m : Str) (h : matchTagAt s = some m) :
    ∃ key value, m = tagText key value ∧ key ≠ [] ∧ (∀ c ∈ key, isKeyChar c = true) ∧
      value ≠ [] ∧ '"' ∉ value := by
  unfold matchTagAt at h
  simp only at h
  split at h
  · rename_i k ks rest hkey hdrop
    split at h
    · rename_i v vs tl hval hdv
      simp only [Option.some.injEq] at h
      refine ⟨s.takeWhile isKeyChar, rest.takeWhile (· ≠ '"'), ?_, ?_, ?_, ?_, ?_⟩
      · rw [← h]; simp [tagText]
      · rw [hkey]; simp
      · intro c hc; exact List.mem_takeWhile_imp hc
      · rw [hval]; simp
      · intro hm
        have := List.mem_takeWhile_imp hm
        simp at this
    · cases h
  · cases h

theorem findAllFrom_mem (s : Str) : ∀ (k : Nat) (m : Str), m ∈ findAllFrom k s →
    ∃ key value, m = tagText key value ∧ key ≠ [] ∧ (∀ c ∈ key, isKeyChar c = true) ∧
      value ≠ [] ∧ '"' ∉ value := by
  induction s with
  | nil => intro k m hm; cases k <;> simp [findAllFrom] at hm
  | cons c cs ih =>
    intro k m hm
    cases k with
    | succ k => rw [findAllFrom] at hm; exact ih k m hm
    | zero =>
      rw [findAllFrom] at hm
      split at hm
      · rename_i m0 hm0
        rcases List.mem_cons.mp hm with h | h
        · rw [h]; exact matchTagAt_some _ _ hm0
        · exact ih _ m h
      · exact ih 0 m hm

/-- Removing a text of one character is filtering it out. -/
theorem remove_single (c : Char) (s : Str) : Remove s [c] = s.filter (· ≠ c) := by
  unfold Remove
  induction s with
  | nil => rfl
  | cons x xs ih =>
    by_cases hx : x = c
    · subst hx
      simp [removeFrom, List.isPrefixOf, ih]
    · have : ¬ (c = x) := fun h => hx h.symm
      simp [removeFrom, List.isPrefixOf, ih, hx, this]

/-- The tag of a match: its name is the key, and its value has neither `"` nor `=`. -/
theorem tagOfMatch_parsed (key value : Str) (hk : ∀ c ∈ key, isKeyChar c = true) :
    (tagOfMatch (tagText key value)).Name = key ∧
    '"' ∉ (tagOfMatch (tagText key value)).Value ∧
    '=' ∉ (tagOfMatch (tagText key value)).Value := by
  have hke : '=' ∉ key := fun hm => (keyChar_ne _ (hk _ hm)).1 rfl
  have hs : Split (tagText key value) '=' = key :: Split ('"' :: (value ++ ['"'])) '=' := by
    unfold tagText
    exact split_append_sep key _ '=' hke
  unfold tagOfMatch
  simp only [hs, List.getD_cons_zero, List.getD_cons_succ, remove_single, true_and]
  constructor
  · simp [List.mem_filter]
  · intro hm
    exact getD_split_no_sep '=' _ 0 (List.mem_filter.mp hm).1

theorem newTrack_parsed (line : Str) (track : Track) (h : newTrack line = Except.ok track) :
    TrackParsed track := by
  obtain ⟨-, hlen, hname, htags, huri, -⟩ := newTrack_ok line track h
  refine ⟨⟨?_, ?_, ?_⟩, atoi_range _ _ hlen, ?_, ?_⟩
  · rw [hname]
    exact fun hm => getD_split_no_sep ',' _ 1 (trim_subset _ _ hm)
  · rw [hname]; exact trim_head _
  · rw [hname]; exact trim_last _
  · intro tag htag
    rw [htags] at htag
    unfold tagsOfLine FindAllString at htag
    obtain ⟨m, hm, rfl⟩ := List.mem_map.mp htag
    obtain ⟨key, value, rfl, hk1, hk2, -, -⟩ := findAllFrom_mem _ _ _ hm
    obtain ⟨h1, h2, h3⟩ := tagOfMatch_parsed key value hk2
    rw [h1]
    exact ⟨hk1, hk2, h2, h3⟩
  · rw [huri]; simp

theorem updateLast_mem (f : Track → Track) (l : List Track) :
    ∀ t ∈ updateLast f l, t ∈ l ∨ ∃ u ∈ l, t = f u := by
  induction l with
  | nil => intro t ht; simp [updateLast] at ht
  | cons a l ih =>
    intro t ht
    cases l with
    | nil =>
      simp only [updateLast, List.mem_singleton] at ht
      exact Or.inr ⟨a, List.mem_cons_self _ _, ht⟩
    | cons b rest =>
      simp only [updateLast, List.mem_cons] at ht
      rcases ht with h | h
      · exact Or.inl (by rw [h]; exact List.mem_cons_self _ _)
      · rcases ih t (by simpa [updateLast] using h) with h1 | ⟨u, hu, h1⟩
        · exact Or.inl (List.mem_cons_of_mem _ h1)
        · exact Or.inr ⟨u, List.mem_cons_of_mem _ hu, h1⟩

/-- Every track of a playlist returned without error has what `TrackParsed` says. -/
theorem parseLines_parsed (lines : List Str) :
    ∀ (b : Bool) (pl p : Playlist), (∀ t ∈ pl.Tracks, TrackParsed t) →
      parseLines b pl lines = Result.ok p → ∀ t ∈ p.Tracks, TrackParsed t := by
  induction lines with
  | nil =>
    intro b pl p hpl h
    simp only [parseLines, Result.ok.injEq] at h
    rw [← h]; exact hpl
  | cons line rest ih =>
    intro b pl p hpl h
    rw [parseLines] at h
    split at h
    · cases h
    · split at h
      · split at h
        · cases h
        · rename_i track htrack
          refine ih _ _ _ ?_ h
          intro t ht
          rcases List.mem_append.mp ht with h1 | h1
          · exact hpl t h1
          · rw [List.mem_singleton] at h1
            rw [h1]; exact newTrack_parsed line track htrack
      · split at h
        · split at h
          · cases h
          · refine ih _ _ _ ?_ h
            intro t ht
            rcases updateLast_mem _ _ t ht with h1 | ⟨u, hu, h1⟩
            · exact hpl t h1
            · rw [h1]; exact hpl u hu
        · split at h
          · exact ih _ _ _ hpl h
          · split at h
            · cases h
            · refine ih _ _ _ ?_ h
              intro t ht
              rcases updateLast_mem _ _ t ht with h1 | ⟨u, hu, h1⟩
              · exact hpl t h1
              · obtain ⟨hn, hl, htg, -⟩ := hpl u hu
                rw [h1]
                exact ⟨hn, hl, htg, trim_head _, trim_last _⟩

theorem readable_of_parsed (wide : Char → Bool) (t : Track) (hp : TrackParsed t)
    (hr : TrackRewritable wide t) : TrackReadable wide t := by
  obtain ⟨⟨n1, n2, n3⟩, hl, htg, u1, u2⟩ := hp
  obtain ⟨⟨r1, r2⟩, rtg, rg, ru, rl⟩ := hr
  refine ⟨⟨n1, n2, n3, r1, r2⟩, hl, ?_, rg, ⟨ru, u1, u2⟩, rl⟩
  intro tag htag
  obtain ⟨a1, a2, a3, a4⟩ := htg tag htag
  obtain ⟨b1, b2, b3⟩ := rtg tag htag
  refine ⟨a1, a2, b1, ?_, b3⟩
  intro c hc
  exact ⟨(b2 c hc).1, fun h => a3 (h ▸ hc), (b2 c hc).2.1, fun h => a4 (h ▸ hc), (b2 c hc).2.2⟩

/-- The text which `Marshall` produces for a playlist of readable tracks is parsed to the
playlist. -/
theorem parseText_marshall_readable (wide : Char → Bool) (p : Playlist)
    (h : ∀ t ∈ p.Tracks, TrackReadable wide t) :
    ParseText (Marshall wide p) = Result.ok p := by
  have hscan : ScanLines (Marshall wide p) =
      "#EXTM3U".toList :: p.Tracks.flatMap (trackLines wide) := by
    unfold Marshall
    rw [marshallInto_lines]
    apply scanLines_lines
    intro l hl
    rcases List.mem_cons.mp hl with hl | hl
    · rw [hl]; unfold LineScannable; decide
    · obtain ⟨t, ht, hlt⟩ := List.mem_flatMap.mp hl
      exact (h t ht).2.2.2.2.2 l hlt
  unfold ParseText Parse
  rw [hscan, parseLines_header _ _ _ (by decide), parseLines_tracks wide p.Tracks h]
  rfl

/-! ### Single turns of the loop on a playlist with a last track -/

/-- A group line sets the group of the last track to the line without `#EXTGRP:`. -/
theorem parseLines_group_step (ts : List Track) (t : Track) (line : Str) (rest : List Str)
    (h : HasPrefix line "#EXTGRP".toList = true) :
    parseLines false ⟨ts ++ [t]⟩ (line :: rest) =
      parseLines false
        ⟨ts ++ [{ t with Group := Remove line "#EXTGRP:".toList }]⟩ rest := by
  have h1 : HasPrefix line "#EXTINF".toList = false := by
    obtain ⟨r, rfl⟩ := (hasPrefix_iff _ _).mp h
    simp [HasPrefix, List.isPrefixOf]
  rw [parseLines]
  simp only [Bool.false_and, Bool.false_eq_true, if_false, h1, h, if_true,
    List.append_eq_nil, List.cons_ne_self, and_false, reduceCtorEq, updateLast_concat]

/-- A location line sets the URI of the last track to the line without the spaces around
it. -/
theorem parseLines_location_step (ts : List Track) (t : Track) (line : Str)
    (rest : List Str) (hne : line ≠ []) (hh : HasPrefix line "#".toList = false) :
    parseLines false ⟨ts ++ [t]⟩ (line :: rest) =
      parseLines false ⟨ts ++ [{ t with URI := Trim line }]⟩ rest := by
  have hhead : line.head? ≠ some '#' := by
    intro hc
    rcases line with _ | ⟨c, cs⟩
    · exact hne rfl
    · simp only [List.head?_cons, Option.some.injEq] at hc
      subst hc
      simp [HasPrefix, List.isPrefixOf] at hh
  have h1 := hasPrefix_false_of_head line "#EXTINF".toList '#' rfl hhead
  have h2 := hasPrefix_false_of_head line "#EXTGRP".toList '#' rfl hhead
  rw [parseLines]
  simp only [Bool.false_and, Bool.false_eq_true, if_false, h1, h2, hh, hne, decide_False,
    Bool.or_self, List.length_append, List.length_singleton, Nat.add_one_ne_zero,
    updateLast_concat]

/-- A line that is passed over can be put in behind any line. -/
theorem parseLines_insert_ignored (c : Str) (hc : isIgnored c = true) (rest : List Str)
    (pre : List Str) : ∀ (b : Bool) (pl : Playlist), pre ≠ [] →
      parseLines b pl (pre ++ c :: rest) = parseLines b pl (pre ++ rest) := by
  induction pre with
  | nil => intro b pl h; exact absurd rfl h
  | cons x xs ih =>
    intro b pl _
    rcases parseLines_step b pl x with ⟨next, hs⟩ | ⟨m, hs⟩ | hs
    · rw [List.cons_append, List.cons_append, hs, hs]
      rcases xs with _ | ⟨y, ys⟩
      · exact parseLines_ignored c rest next hc
      · exact ih false next (by simp)
    · rw [List.cons_append, List.cons_append, hs, hs]
    · rw [List.cons_append, List.cons_append, hs, hs]

theorem count_newline_line (l : Str) (h : '\n' ∉ l) : (l ++ ['\n']).count '\n' = 1 := by
  rw [List.count_append, List.count_eq_zero.mpr h]
  rfl

/-! ### The order of the matches -/

theorem matchTagAt_front (s m : Str) (h : matchTagAt s = some m) : ∃ rest, s = m ++ rest := by
  unfold matchTagAt at h
  simp only at h
  split at h
  · rename_i k ks rest hkey hdrop
    split at h
    · rename_i v vs tl hval hdv
      simp only [Option.some.injEq] at h
      refine ⟨tl, ?_⟩
      have e1 := List.takeWhile_append_dropWhile isKeyChar s
      have e2 := List.takeWhile_append_dropWhile (fun c => decide (c ≠ '"')) rest
      rw [hdv] at e2
      rw [hdrop] at e1
      rw [← h]
      conv_lhs => rw [← e1, ← e2]
      simp
    · cases h
  · cases h

theorem occursInOrder_cons (c : Char) (ms : List Str) (s : Str) (h : occursInOrder ms s) :
    occursInOrder ms (c :: s) := by
  cases ms with
  | nil => trivial
  | cons m ms =>
    obtain ⟨pre, rest, hs, hr⟩ := h
    exact ⟨c :: pre, rest, by rw [hs]; rfl, hr⟩

/-- The matches are found from left to right: they stand in the text in the order of the
result, each behind the one before. -/
theorem findAllFrom_occurs (s : Str) : ∀ k, occursInOrder (findAllFrom k s) (s.drop k) := by
  induction s with
  | nil => intro k; cases k <;> trivial
  | cons c cs ih =>
    intro k
    cases k with
    | succ k => rw [findAllFrom, List.drop_succ_cons]; exact ih k
    | zero =>
      rw [findAllFrom, List.drop_zero]
      split
      · rename_i m hm
        obtain ⟨rest, hrest⟩ := matchTagAt_front _ _ hm
        refine ⟨[], rest, by rw [hrest]; rfl, ?_⟩
        have hlen : 0 < m.length := by
          rcases m with _ | ⟨x, xs⟩
          · obtain ⟨key, value, hkv, -⟩ := matchTagAt_some _ _ hm
            simp [tagText] at hkv
          · simp
        have hd : rest = cs.drop (m.length - 1) := by
          have h1 : (c :: cs).drop m.length = rest := by
            rw [hrest]; simp
          rw [← h1]
          obtain ⟨n, hn⟩ : ∃ n, m.length = n + 1 := ⟨m.length - 1, by omega⟩
          rw [hn, List.drop_succ_cons]; rfl
        rw [hd]
        exact ih _
      · exact occursInOrder_cons c _ _ (by simpa using ih 0)

/-! ### Decimal integers -/

theorem digitVal_eq (c : Char) :
    digitVal c = if isDigit c = true then some (c.toNat - 48) else none := by
  unfold digitVal isDigit
  by_cases h : '0' ≤ c ∧ c ≤ '9'
  · simp [h]
  · rw [if_neg h, if_neg]
    simpa using h

theorem parseDigits_digits (ds : Str) : ∀ acc, (∀ c ∈ ds, isDigit c = true) →
    parseDigits acc ds = some (ds.foldl (fun a c => 10 * a + (c.toNat - 48)) acc) := by
  induction ds with
  | nil => intro acc _; rfl
  | cons d ds ih =>
    intro acc h
    rw [parseDigits, digitVal_eq, if_pos (h d (List.mem_cons_self _ _))]
    exact ih _ (fun c hc => h c (List.mem_cons_of_mem _ hc))

theorem parseDigits_some (ds : Str) : ∀ acc n, parseDigits acc ds = some n →
    ∀ c ∈ ds, isDigit c = true := by
  induction ds with
  | nil => intro acc n _ c hc; cases hc
  | cons d ds ih =>
    intro acc n h c hc
    rw [parseDigits, digitVal_eq] at h
    by_cases hd : isDigit d = true
    · rw [if_pos hd] at h
      rcases List.mem_cons.mp hc with h1 | h1
      · rw [h1]; exact hd
      · exact ih _ _ h c h1
    · rw [if_neg hd] at h
      cases h

/-- `Atoi` returns the number `i` exactly for the decimal integers that denote a number of the
range of `int`. -/
theorem atoi_eq_some_iff (s : Str) (i : Int) :
    Atoi s = some i ↔ Denotes s i ∧ -(2 ^ 63 : Int) ≤ i ∧ i < 2 ^ 63 := by
  constructor
  · intro h
    refine ⟨?_, atoi_range s i h⟩
    unfold Atoi at h
    split at h
    · cases h
    · rename_i c cs
      split at h
      · rename_i hc
        split at h
        · cases h
        · rename_i x xs
          split at h
          · cases h
          · rename_i n hn
            split at h
            · simp only [Option.some.injEq] at h
              have hdig := parseDigits_some _ _ _ hn
              rw [parseDigits_digits _ 0 hdig, Option.some.injEq] at hn
              exact ⟨x :: xs, by simp, hdig, Or.inr ⟨by rw [hc], by
                rw [← h, ← hn]; rfl⟩⟩
            · cases h
      · rename_i hc
        split at h
        · rename_i hp
          split at h
          · cases h
          · rename_i x xs
            split at h
            · cases h
            · rename_i n hn
              split at h
              · simp only [Option.some.injEq] at h
                have hdig := parseDigits_some _ _ _ hn
                rw [parseDigits_digits _ 0 hdig, Option.some.injEq] at hn
                exact ⟨x :: xs, by simp, hdig, Or.inl ⟨Or.inr (by rw [hp]), by
                  rw [← h, ← hn]; rfl⟩⟩
              · cases h
        · split at h
          · cases h
          · rename_i n hn
            split at h
            · simp only [Option.some.injEq] at h
              have hdig := parseDigits_some _ _ _ hn
              rw [parseDigits_digits _ 0 hdig, Option.some.injEq] at hn
              exact ⟨c :: cs, by simp, hdig, Or.inl ⟨Or.inl rfl, by
                rw [← h, ← hn]; rfl⟩⟩
            · cases h
  · rintro ⟨⟨ds, hne, hdig, hcase⟩, hlo, hhi⟩
    have hparse := parseDigits_digits ds 0 hdig
    rcases ds with _ | ⟨d, ds⟩
    · exact absurd rfl hne
    · have hd := hdig d (List.mem_cons_self _ _)
      have hd1 : d ≠ '-' := by rintro rfl; revert hd; decide
      have hd2 : d ≠ '+' := by rintro rfl; revert hd; decide
      rcases hcase with ⟨hs | hs, hi⟩ | ⟨hs, hi⟩
      · have hb : digitsValue (d :: ds) < 2 ^ 63 := by omega
        subst hs
        simp only [Atoi, if_neg hd1, if_neg hd2, hparse]
        unfold digitsValue at hb hi
        simp only [hb, if_true, hi]
      · have hb : digitsValue (d :: ds) < 2 ^ 63 := by omega
        subst hs
        have hp : ('+' : Char) ≠ '-' := by decide
        simp only [Atoi, if_neg hp, if_true, hparse]
        unfold digitsValue at hb hi
        simp only [hb, if_true, hi]
      · have hb : digitsValue (d :: ds) ≤ 2 ^ 63 := by omega
        subst hs
        simp only [Atoi, if_true, hparse]
        unfold digitsValue at hb hi
        simp only [hb, if_true, hi]

/-- What `%d` writes is a decimal integer that denotes the number. -/
theorem formatInt_denotes (i : Int) : Denotes (formatInt i) i := by
  obtain ⟨hne, hdig, hparse⟩ := formatNat_spec i.natAbs
  have hd : ∀ c ∈ formatNat i.natAbs, isDigit c = true := parseDigits_some _ _ _ hparse
  have hv : digitsValue (formatNat i.natAbs) = i.natAbs := by
    have := parseDigits_digits _ 0 hd
    rw [hparse, Option.some.injEq] at this
    exact this.symm
  refine ⟨formatNat i.natAbs, hne, hd, ?_⟩
  unfold formatInt
  split
  · exact Or.inr ⟨rfl, by rw [hv]; omega⟩
  · exact Or.inl ⟨Or.inl rfl, by rw [hv]; omega⟩

/-! ### Commas -/

theorem two_pieces_of_mem (s : Str) (h : ',' ∈ s) : 2 ≤ (Split s ',').length := by
  induction s with
  | nil => cases h
  | cons c cs ih =>
    rw [Split]
    split
    · have : 1 ≤ (Split cs ',').length := by
        cases cs <;> rw [Split]
        · simp
        · split
          · simp
          · rcases Split _ ',' with _ | ⟨a, b⟩ <;> simp [consFirst]
      simp only [List.length_cons]
      omega
    · rename_i hc
      have hcs : ',' ∈ cs := by
        rcases List.mem_cons.mp h with h1 | h1
        · exact absurd h1.symm hc
        · exact h1
      have := ih hcs
      rcases hs : Split cs ',' with _ | ⟨a, b⟩
      · rw [hs] at this; simp at this
      · rw [hs] at this; simpa [consFirst] using this

/-- Removing the occurrences of a text without comma leaves the commas. -/
theorem mem_remove_of_mem (old : Str) (hold : ',' ∉ old) (hne : old ≠ []) :
    ∀ (n : Nat) (s : Str), s.length ≤ n → ',' ∈ s → ',' ∈ Remove s old := by
  intro n
  induction n with
  | zero =>
    intro s hs h
    rcases s with _ | ⟨c, cs⟩
    · cases h
    · simp at hs
  | succ n ih =>
    intro s hs h
    rcases s with _ | ⟨c, cs⟩
    · cases h
    · by_cases hp : old.isPrefixOf (c :: cs) = true
      · obtain ⟨rest, hrest⟩ := List.isPrefixOf_iff_prefix.mp hp
        rw [← hrest, remove_front old hne]
        have hlen : rest.length ≤ n := by
          have h1 : (old ++ rest).length = (c :: cs).length := by rw [hrest]
          have h2 : 0 < old.length := List.length_pos.mpr hne
          simp only [List.length_append, List.length_cons] at h1 hs
          omega
        apply ih rest hlen
        rw [← hrest] at h
        rcases List.mem_append.mp h with h1 | h1
        · exact absurd h1 hold
        · exact h1
      · have e : Remove (c :: cs) old = c :: Remove cs old := by
          unfold Remove
          rw [removeFrom, if_neg hp]
        rw [e]
        rcases List.mem_cons.mp h with h1 | h1
        · rw [h1]; exact List.mem_cons_self _ _
        · exact List.mem_cons_of_mem _ (ih cs (by simp at hs; omega) h1)

/-- The outcome of the EXTINF branch for a line with a comma: the length error when `Atoi`
rejects the token, and else a track with the number as its length. -/
theorem newTrack_of_comma (line : Str) (h : ',' ∈ line) :
    (Atoi (lengthToken line) = none ∧ newTrack line = Except.error errLength) ∨
    ∃ track, Atoi (lengthToken line) = some track.Length ∧
      newTrack line = Except.ok track := by
  have h2 : ¬ (Split (Remove line "#EXTINF:".toList) ',').length < 2 := by
    have := two_pieces_of_mem _
      (mem_remove_of_mem "#EXTINF:".toList (by decide) (by decide) _ line (le_refl _) h)
    omega
  unfold newTrack lengthToken
  simp only [if_neg h2]
  cases hA : Atoi ((Split (TrimSpace ((Split (Remove line "#EXTINF:".toList) ',').getD 0 []))
      ' ').getD 0 []) with
  | none => exact Or.inl ⟨rfl, rfl⟩
  | some n => exact Or.inr ⟨_, rfl, rfl⟩

/-! ### The tags written -/

theorem writeTags_intercalate (wide : Char → Bool) (tags : List Tag) :
    writeTags wide tags = [' '].intercalate (tags.map (renderTag wide)) := by
  induction tags with
  | nil => rfl
  | cons tag rest ih =>
    cases rest with
    | nil => simp [writeTags, renderTag, List.intercalate, List.intersperse]
    | cons next rest =>
      rw [writeTags, ih]
      simp [renderTag, List.intercalate, List.intersperse]

/-! ### The scanner and the lines of a text -/

theorem split_ne_nil (s : Str) (sep : Char) : Split s sep ≠ [] := by
  cases s with
  | nil => simp [Split]
  | cons c cs =>
    rw [Split]
    split
    · simp
    · rcases Split cs sep with _ | ⟨a, b⟩ <;> simp [consFirst]

theorem prependFirst_consFirst (cur : Str) (c : Char) (ps : List Str) :
    prependFirst cur (consFirst c ps) = prependFirst (cur ++ [c]) ps := by
  cases ps <;> simp [prependFirst, consFirst]

theorem prependFirst_nil (ps : List Str) (h : ps ≠ []) : prependFirst [] ps = ps := by
  cases ps with
  | nil => exact absurd rfl h
  | cons p ps => rfl

theorem dropLastEmpty_cons (x : Str) (ps : List Str) (h : ps ≠ []) :
    dropLastEmpty (x :: ps) = x :: dropLastEmpty ps := by
  rcases ps with _ | ⟨p, ps⟩
  · exact absurd rfl h
  · unfold dropLastEmpty
    rw [List.getLast?_cons_cons]
    split <;> simp

theorem dropLastEmpty_singleton (x : Str) :
    dropLastEmpty [x] = if x = [] then [] else [x] := by
  unfold dropLastEmpty
  by_cases h : x = []
  · simp [h]
  · simp [h]

/-- The scanner delivers the lines of the text, each without its carriage return, as long as
they are shorter than its buffer: for every front part `pre` of the lines of the text whose
lines are short, the scan starts with these lines, and when `pre` is all of them, the scan
is these lines. -/
theorem scanFrom_lines (text : Str) : ∀ (cur : Str) (pre more : List Str),
    dropLastEmpty (prependFirst cur (Split text '\n')) = pre ++ more →
    (∀ l ∈ pre, utf8Len l < MaxScanTokenSize) →
    ∃ rest, scanFrom cur text = pre.map dropCR ++ rest ∧ (more = [] → rest = []) := by
  induction text with
  | nil =>
    intro cur pre more h hs
    simp only [Split, prependFirst, List.append_nil, dropLastEmpty_singleton] at h
    by_cases hc : cur = []
    · rw [if_pos hc] at h
      have hp : pre = [] := (List.append_eq_nil.mp h.symm).1
      refine ⟨[], ?_, fun _ => rfl⟩
      rw [hp, hc]; rfl
    · rw [if_neg hc] at h
      rcases pre with _ | ⟨l, pre⟩
      · refine ⟨scanFrom cur [], rfl, ?_⟩
        intro hm
        rw [hm] at h
        cases h
      · simp only [List.cons_append, List.cons.injEq] at h
        obtain ⟨h1, h2⟩ := h
        have hp : pre = [] := (List.append_eq_nil.mp h2.symm).1
        have hshort : utf8Len cur < MaxScanTokenSize := by
          rw [h1]; exact hs l (List.mem_cons_self _ _)
        refine ⟨[], ?_, fun _ => rfl⟩
        rw [hp, ← h1]
        simp [scanFrom, hc, hshort]
  | cons c cs ih =>
    intro cur pre more h hs
    by_cases hc : c = '\n'
    · subst hc
      rw [Split, if_pos rfl] at h
      simp only [prependFirst, List.append_nil] at h
      rw [dropLastEmpty_cons _ _ (split_ne_nil cs '\n')] at h
      rcases pre with _ | ⟨l, pre⟩
      · refine ⟨scanFrom cur ('\n' :: cs), rfl, ?_⟩
        intro hm
        rw [hm] at h
        cases h
      · simp only [List.cons_append, List.cons.injEq] at h
        obtain ⟨h1, h2⟩ := h
        have hshort : utf8Len cur < MaxScanTokenSize := by
          rw [h1]; exact hs l (List.mem_cons_self _ _)
        obtain ⟨rest, hr, hm⟩ := ih [] pre more
          (by rw [prependFirst_nil _ (split_ne_nil cs '\n')]; exact h2)
          (fun x hx => hs x (List.mem_cons_of_mem _ hx))
        refine ⟨rest, ?_, hm⟩
        rw [scanFrom, if_pos rfl, if_pos hshort, hr, h1]
        rfl
    · rw [Split, if_neg hc, prependFirst_consFirst] at h
      obtain ⟨rest, hr, hm⟩ := ih (cur ++ [c]) pre more h hs
      exact ⟨rest, by rw [scanFrom, if_neg hc, hr], hm⟩

/-- For a text of short lines the scanner delivers the lines of the input. -/
theorem scanLines_of_short (text : Str) (h : ShortLines text) :
    ScanLines text = inputLines text := by
  obtain ⟨rest, hr, hm⟩ := scanFrom_lines text [] (rawLines text) []
    (by rw [prependFirst_nil _ (split_ne_nil text '\n'), List.append_nil]; rfl) h
  unfold ScanLines inputLines
  rw [hr, hm rfl, List.append_nil]

/-- The scan starts with the first lines of the text when these are short. -/
theorem scanLines_front (text : Str) (pre more : List Str)
    (h : rawLines text = pre ++ more) (hs : ∀ l ∈ pre, utf8Len l < MaxScanTokenSize) :
    ∃ rest, ScanLines text = pre.map dropCR ++ rest := by
  obtain ⟨rest, hr, -⟩ := scanFrom_lines text [] pre more
    (by rw [prependFirst_nil _ (split_ne_nil text '\n')]; exact h) hs
  exact ⟨rest, hr⟩

/-- A line that does not fit the buffer ends the scan, and nothing is delivered for it. -/
theorem scanFrom_too_long (l : Str) : ∀ (cur rest : Str), '\n' ∉ l →
    ¬ utf8Len (cur ++ l) < MaxScanTokenSize →
    scanFrom cur (l ++ '\n' :: rest) = [] := by
  induction l with
  | nil =>
    intro cur rest _ hlen
    rw [List.append_nil] at hlen
    simp only [List.nil_append, scanFrom, if_true, if_neg hlen]
  | cons c cs ih =>
    intro cur rest hnl hlen
    have hc : c ≠ '\n' := fun h => hnl (by rw [h]; exact List.mem_cons_self _ _)
    have e : cur ++ c :: cs = (cur ++ [c]) ++ cs := by simp
    rw [List.cons_append, scanFrom, if_neg hc,
      ih (cur ++ [c]) rest (fun h => hnl (List.mem_cons_of_mem _ h)) (by rw [← e]; exact hlen)]

/-- The scan of a file ends in front of the first line that does not fit the buffer: the lines
behind it are not delivered, and no error is seen by `Parse`. -/
theorem scanLines_until_long (pre : List Str) (long : Str) (post : List Str)
    (hpre : ∀ l ∈ pre, LineScannable l) (hnl : '\n' ∉ long)
    (hlong : ¬ utf8Len long < MaxScanTokenSize) :
    ScanLines (textOfLines (pre ++ long :: post)) = pre := by
  unfold ScanLines textOfLines
  induction pre with
  | nil =>
    rw [List.nil_append, List.flatMap_cons, List.append_assoc, List.singleton_append]
    exact scanFrom_too_long long [] _ hnl (by simpa using hlong)
  | cons l ls ih =>
    obtain ⟨h1, h2, h3⟩ := hpre l (List.mem_cons_self _ _)
    rw [List.cons_append, List.flatMap_cons, List.append_assoc, List.singleton_append,
      scanFrom_line l [] _ h1 (by simpa using h3),
      ih (fun x hx => hpre x (List.mem_cons_of_mem _ hx)), List.nil_append,
      dropCR_eq_self l h2]

theorem utf8Len_replicate_x (n : Nat) : utf8Len (List.replicate n 'x') = n := by
  induction n with
  | zero => rfl
  | succ n ih =>
    unfold utf8Len at ih ⊢
    rw [List.replicate_succ, List.map_cons, List.sum_cons, ih]
    have : Char.utf8Size 'x' = 1 := by decide
    omega

theorem utf8Len_cons_x (s : Str) : utf8Len ('x' :: s) = utf8Len s + 1 := by
  unfold utf8Len
  rw [List.map_cons, List.sum_cons]
  have : Char.utf8Size 'x' = 1 := by decide
  omega

theorem utf8Len_cons_hash (s : Str) : utf8Len ('#' :: s) = utf8Len s + 1 := by
  unfold utf8Len
  rw [List.map_cons, List.sum_cons]
  have : Char.utf8Size '#' = 1 := by decide
  omega

theorem longLine_facts : '\n' ∉ longLine ∧ ¬ utf8Len longLine < MaxScanTokenSize ∧
    longLine ≠ [] ∧ HasPrefix longLine "#".toList = false ∧
    HasPrefix longLine "#EXTM3U".toList = false := by
  refine ⟨?_, ?_, ?_, ?_, ?_⟩
  · unfold longLine
    intro h
    rcases List.mem_cons.mp h with h | h
    · revert h; decide
    · have := List.eq_of_mem_replicate h
      revert this; decide
  · unfold longLine
    rw [utf8Len_cons_x, utf8Len_replicate_x]
    unfold MaxScanTokenSize
    omega
  · unfold longLine; exact List.cons_ne_nil _ _
  · unfold longLine; simp [HasPrefix, List.isPrefixOf]
  · unfold longLine; simp [HasPrefix, List.isPrefixOf]

theorem isIgnored_hash_x (s : Str) : isIgnored ('#' :: 'x' :: s) = true := by
  simp [isIgnored, HasPrefix, List.isPrefixOf]

theorem longComment_facts : '\n' ∉ longComment ∧ ¬ utf8Len longComment < MaxScanTokenSize ∧
    isIgnored longComment = true := by
  refine ⟨?_, ?_, ?_⟩
  · unfold longComment
    intro h
    rcases List.mem_cons.mp h with h | h
    · revert h; decide
    · rcases List.mem_cons.mp h with h | h
      · revert h; decide
      · have := List.eq_of_mem_replicate h
        revert this; decide
  · unfold longComment
    rw [utf8Len_cons_hash, utf8Len_cons_x, utf8Len_replicate_x]
    unfold MaxScanTokenSize
    omega
  · exact isIgnored_hash_x _

/-- The part of a text up to a newline is scanned in the same way whatever follows the
newline: either the scan goes on behind the newline, having delivered at least one line, or it
has ended before. -/
theorem scanFrom_front (front : Str) : ∀ cur : Str,
    (∃ pre, pre ≠ [] ∧ ∀ tail, scanFrom cur (front ++ '\n' :: tail) = pre ++ scanFrom [] tail) ∨
    (∃ r, ∀ tail, scanFrom cur (front ++ '\n' :: tail) = r) := by
  induction front with
  | nil =>
    intro cur
    by_cases hs : utf8Len cur < MaxScanTokenSize
    · exact Or.inl ⟨[dropCR cur], by simp, fun tail => by
        simp [scanFrom, hs]⟩
    · exact Or.inr ⟨[], fun tail => by simp [scanFrom, hs]⟩
  | cons c cs ih =>
    intro cur
    by_cases hc : c = '\n'
    · subst hc
      by_cases hs : utf8Len cur < MaxScanTokenSize
      · rcases ih [] with ⟨pre, -, hp⟩ | ⟨r, hr⟩
        · exact Or.inl ⟨dropCR cur :: pre, by simp, fun tail => by
            rw [List.cons_append, scanFrom, if_pos rfl, if_pos hs, hp]; rfl⟩
        · exact Or.inr ⟨dropCR cur :: r, fun tail => by
            rw [List.cons_append, scanFrom, if_pos rfl, if_pos hs, hr]⟩
      · exact Or.inr ⟨[], fun tail => by
          rw [List.cons_append, scanFrom, if_pos rfl, if_neg hs]⟩
    · rcases ih (cur ++ [c]) with ⟨pre, hne, hp⟩ | ⟨r, hr⟩
      · exact Or.inl ⟨pre, hne, fun tail => by
          rw [List.cons_append, scanFrom, if_neg hc, hp]⟩
      · exact Or.inr ⟨r, fun tail => by
          rw [List.cons_append, scanFrom, if_neg hc, hr]⟩

/-- A line that is passed over is passed over without its carriage return as well. -/
theorem isIgnored_dropCR (c : Str) (h : isIgnored c = true) : isIgnored (dropCR c) = true := by
  unfold dropCR
  split
  · rename_i hlast
    rcases c with _ | ⟨x, xs⟩
    · cases hlast
    · unfold isIgnored at h ⊢
      simp only [reduceCtorEq, decide_False, Bool.false_or, Bool.and_eq_true,
        Bool.not_eq_true'] at h
      obtain ⟨⟨h1, h2⟩, h3⟩ := h
      obtain ⟨t, ht⟩ := (hasPrefix_iff _ _).mp h1
      simp at ht
      obtain ⟨hx, -⟩ := ht
      subst hx
      rcases xs with _ | ⟨y, ys⟩
      · revert hlast; decide
      · have hpre : ('#' :: y :: ys).dropLast <+: '#' :: y :: ys := List.dropLast_prefix _
        have hno : ∀ pre : Str, HasPrefix ('#' :: y :: ys) pre = false →
            HasPrefix ('#' :: y :: ys).dropLast pre = false := by
          intro pre hf
          cases hh : HasPrefix ('#' :: y :: ys).dropLast pre
          · rfl
          · have h4 : pre <+: ('#' :: y :: ys).dropLast := by
              unfold HasPrefix at hh
              exact List.isPrefixOf_iff_prefix.mp hh
            have h5 : HasPrefix ('#' :: y :: ys) pre = true := by
              unfold HasPrefix
              exact List.isPrefixOf_iff_prefix.mpr (h4.trans hpre)
            rw [hf] at h5
            cases h5
        have hhash : HasPrefix ('#' :: y :: ys).dropLast "#".toList = true := by
          simp [HasPrefix, List.isPrefixOf, List.dropLast]
        simp only [hhash, hno _ h2, hno _ h3, Bool.not_false, Bool.and_self, Bool.or_true]
  · exact h

/-! ### Parse on the lines delivered -/

/-- On the lines delivered: when `Parse` succeeds, the playlist has as many tracks as there
are lines that begin with `#EXTINF`, and the k-th track carries the name, the length and the
tags which `newTrack` reads from the k-th such line. -/
theorem parse_lines_tracks_follow (lines : List Str) (p : Playlist)
    (h : Parse lines = Result.ok p) :
    p.Tracks.length = (lines.filter (fun l => HasPrefix l "#EXTINF".toList)).length ∧
    ∀ (k : Nat) (line : Str),
      (lines.filter (fun l => HasPrefix l "#EXTINF".toList))[k]? = some line →
      ∃ track made, p.Tracks[k]? = some track ∧ newTrack line = Except.ok made ∧
        track.Name = made.Name ∧ track.Length = made.Length ∧ track.Tags = made.Tags := by
  obtain ⟨made, hmade, hp⟩ := parseLines_ok_metadata lines true ⟨[]⟩ p h
  simp only [List.nil_append] at hp
  have hlen : p.Tracks.length = made.length := by
    simpa using congrArg List.length hp
  refine ⟨by rw [hlen, hmade.length_eq], ?_⟩
  intro k line hk
  have hlt : k < (lines.filter (fun l => HasPrefix l "#EXTINF".toList)).length := by
    by_contra hcon
    rw [List.getElem?_eq_none (by omega)] at hk
    cases hk
  have hk1 : k < made.length := by rw [← hmade.length_eq]; exact hlt
  have hk2 : k < p.Tracks.length := by rw [hlen]; exact hk1
  refine ⟨p.Tracks[k], made[k], List.getElem?_eq_getElem hk2, ?_, ?_⟩
  · have := List.Forall₂.get hmade hlt hk1
    simp only [List.get_eq_getElem] at this
    rw [List.getElem?_eq_getElem hlt] at hk
    cases hk
    exact this
  · have h2 : (p.Tracks.map metadata)[k]? = (made.map metadata)[k]? := by rw [hp]
    simp only [List.getElem?_map, List.getElem?_eq_getElem hk2, List.getElem?_eq_getElem hk1,
      Option.map_some', Option.some.injEq, metadata, Prod.mk.injEq] at h2
    exact h2

/-- On the lines delivered: a first line that does not begin with `#EXTM3U` gives the
missing-header error and an empty playlist, whatever the lines after it are. -/
theorem parse_lines_missing_header (line : Str) (rest : List Str)
    (h : HasPrefix line "#EXTM3U".toList = false) :
    Parse (line :: rest) = Result.error ⟨[]⟩ errHeader := by
  simp only [Parse, parseLines, h, Bool.not_false, Bool.and_self, if_true]

/-- On the lines delivered: after a first line that begins with `#EXTM3U` and lines that are
passed over, a location line gives the error `URI provided for playlist with no tracks`. -/
theorem parse_lines_location_before_track (hd : Str) (pre : List Str) (loc : Str)
    (rest : List Str) (hhd : HasPrefix hd "#EXTM3U".toList = true)
    (hpre : ∀ l ∈ pre, isIgnored l = true)
    (hloc : loc ≠ [] ∧ HasPrefix loc "#".toList = false) :
    Parse (hd :: (pre ++ loc :: rest)) = Result.error ⟨[]⟩ errNoTracks := by
  unfold Parse
  rw [parseLines_header hd _ _ hhd, parseLines_ignored_append pre _ _ hpre]
  obtain ⟨hne, hh⟩ := hloc
  have h1 : HasPrefix loc "#EXTINF".toList = false := by
    cases h : HasPrefix loc "#EXTINF".toList
    · rfl
    · obtain ⟨t, rfl⟩ := (hasPrefix_iff _ _).mp h
      simp [HasPrefix, List.isPrefixOf] at hh
  have h2 : HasPrefix loc "#EXTGRP".toList = false := by
    cases h : HasPrefix loc "#EXTGRP".toList
    · rfl
    · obtain ⟨t, rfl⟩ := (hasPrefix_iff _ _).mp h
      simp [HasPrefix, List.isPrefixOf] at hh
  simp only [parseLines, Bool.false_and, Bool.false_eq_true, if_false, h1, h2, hh, hne,
    decide_False, Bool.or_self, List.length_nil, if_true]

/-- On the lines delivered: a line that is passed over, put in at any place behind the first
line, leaves the outcome of `Parse` as it is. -/
theorem parse_lines_ignored_line (pre rest : List Str) (c : Str) (hpre : pre ≠ [])
    (hc : isIgnored c = true) : Parse (pre ++ c :: rest) = Parse (pre ++ rest) :=
  parseLines_insert_ignored c hc rest pre true ⟨[]⟩ hpre

/-! ## The claims -/

/-- C1 as stated fails: the file has the lines `#EXTM3U`, `#EXTINF:1,a`, a comment of 65536
bytes and `#EXTINF:2,b`; the scan ends at the comment, `Parse` returns one track and a nil
error, and the input has two lines that begin with `#EXTINF`. -/
theorem long_comment_hides_track :
    ParseText (textOfLines
      ["#EXTM3U".toList, "#EXTINF:1,a".toList, longComment, "#EXTINF:2,b".toList]) =
      Result.ok ⟨[⟨"a".toList, 1, [], [], []⟩]⟩ ∧
    (["#EXTM3U".toList, "#EXTINF:1,a".toList, longComment, "#EXTINF:2,b".toList].filter
      (fun l => HasPrefix l "#EXTINF".toList)).length = 2 := by
  constructor
  · unfold ParseText
    rw [show ["#EXTM3U".toList, "#EXTINF:1,a".toList, longComment, "#EXTINF:2,b".toList] =
        ["#EXTM3U".toList, "#EXTINF:1,a".toList] ++ longComment :: ["#EXTINF:2,b".toList]
      from rfl,
      scanLines_until_long _ longComment _ (by decide) longComment_facts.1
        longComment_facts.2.1]
    decide
  · have h : HasPrefix longComment "#EXTINF".toList = false := by
      unfold longComment; simp [HasPrefix, List.isPrefixOf]
    simp only [List.filter, h]
    decide

/-- C1, amended: for every input whose lines are all shorter than 65536 bytes and on which
`Parse` succeeds, the playlist has exactly as many tracks as the input has lines that begin
with `#EXTINF`, and the k-th track carries the name, the length (and the tags) which the
EXTINF branch reads from the k-th such line, so the tracks stand in the order of their
metadata lines. -/
theorem tracks_follow_extinf_lines_of_text (text : Str) (p : Playlist)
    (hs : ShortLines text) (h : ParseText text = Result.ok p) :
    p.Tracks.length =
      ((inputLines text).filter (fun l => HasPrefix l "#EXTINF".toList)).length ∧
    ∀ (k : Nat) (line : Str),
      ((inputLines text).filter (fun l => HasPrefix l "#EXTINF".toList))[k]? = some line →
      ∃ track made, p.Tracks[k]? = some track ∧ newTrack line = Except.ok made ∧
        track.Name = made.Name ∧ track.Length = made.Length ∧ track.Tags = made.Tags := by
  unfold ParseText at h
  rw [scanLines_of_short text hs] at h
  exact parse_lines_tracks_follow (inputLines text) p h

/-- C1, amended, at a file of two tracks: the tracks `a` and `b` stand in the order of their
lines. -/
theorem tracks_follow_extinf_lines_of_text_witness :
    ShortLines (textOfLines twoTrackLines) ∧
    ParseText (textOfLines twoTrackLines) =
      Result.ok ⟨[⟨"a".toList, 1, "u".toList, [], []⟩, ⟨"b".toList, 2, "v".toList, [], []⟩]⟩ ∧
    (inputLines (textOfLines twoTrackLines)).filter
      (fun l => HasPrefix l "#EXTINF".toList) = ["#EXTINF:1,a".toList, "#EXTINF:2,b".toList] ∧
    ((⟨[⟨"a".toList, 1, "u".toList, [], []⟩, ⟨"b".toList, 2, "v".toList, [], []⟩]⟩ :
        Playlist).Tracks.length =
        ((inputLines (textOfLines twoTrackLines)).filter
          (fun l => HasPrefix l "#EXTINF".toList)).length ∧
      ∀ (k : Nat) (line : Str),
        ((inputLines (textOfLines twoTrackLines)).filter
          (fun l => HasPrefix l "#EXTINF".toList))[k]? = some line →
        ∃ track made,
          (⟨[⟨"a".toList, 1, "u".toList, [], []⟩, ⟨"b".toList, 2, "v".toList, [], []⟩]⟩ :
            Playlist).Tracks[k]? = some track ∧
          newTrack line = Except.ok made ∧
          track.Name = made.Name ∧ track.Length = made.Length ∧ track.Tags = made.Tags) :=
  ⟨by decide, by decide, by decide,
    tracks_follow_extinf_lines_of_text (textOfLines twoTrackLines) _ (by decide) (by decide)⟩

/-- C2 as stated fails: the name ` a` has no comma and the track has no tag, but the text
written for the playlist is parsed to a track with the name `a`, the space being trimmed. -/
theorem roundtrip_loses_leading_space :
    (∀ t ∈ spacedPlaylist.Tracks, ',' ∉ t.Name ∧ ∀ tag ∈ t.Tags, '"' ∉ tag.Value) ∧
    ParseText (Marshall (fun _ => false) spacedPlaylist) =
      Result.ok ⟨[⟨"a".toList, 1, "u".toList, [], []⟩]⟩ ∧
    ParseText (Marshall (fun _ => false) spacedPlaylist) ≠ Result.ok spacedPlaylist := by
  decide

/-- C2, amended: parsing the text which `Marshall` produces for a playlist succeeds and gives
the playlist itself when every track is readable (`TrackReadable`): its name has no comma, no
space at either end, no `#EXTINF:` and no text that matches the tag pattern; its length is in
the range of `int`; every tag has a non-empty name of letters, digits and hyphens and a
non-empty value of printable characters without `"`, backslash, `=` and comma and without
`#EXTINF:`; its group has no `#EXTGRP:`; its URI does not start with `#` and has no space at
either end; and every line written for it has no newline, no carriage return at its end and
fewer than 65536 bytes. -/
theorem marshall_parse_roundtrip (wide : Char → Bool) (p : Playlist)
    (h : ∀ t ∈ p.Tracks, TrackReadable wide t) :
    ParseText (Marshall wide p) = Result.ok p :=
  parseText_marshall_readable wide p h

/-- C2, amended, at a playlist of two tracks, one with a tag and a group and one without. -/
theorem marshall_parse_roundtrip_witness :
    (∀ t ∈ twoTracks.Tracks, TrackReadable (fun _ => false) t) ∧
    ParseText (Marshall (fun _ => false) twoTracks) = Result.ok twoTracks :=
  ⟨by decide, marshall_parse_roundtrip _ twoTracks (by decide)⟩

/-- C3 as stated fails: the input has a header, no comment or blank line and one comma in its
EXTINF line, and `Parse` succeeds on it; the tag value `a\b` is written as `"a\\b"` by `%q` and
read back with two backslashes. -/
theorem reparse_doubles_backslash :
    (HasPrefix (backslashLines.headD []) "#EXTM3U".toList = true ∧
      (∀ l ∈ backslashLines.tail, isIgnored l = false) ∧
      ∀ l ∈ backslashLines, HasPrefix l "#EXTINF".toList = true → l.count ',' = 1) ∧
    Parse backslashLines = Result.ok backslashPlaylist ∧
    ParseText (Marshall (fun _ => false) backslashPlaylist) =
      Result.ok ⟨[⟨"N".toList, 1, "u".toList, [⟨"k".toList, "a\\\\b".toList⟩], []⟩]⟩ ∧
    ParseText (Marshall (fun _ => false) backslashPlaylist) ≠ Parse backslashLines := by
  decide

/-- C3, amended: when `Parse` succeeds on an input, parsing the serialization of the parsed
playlist succeeds and gives that playlist again, provided that in the parsed playlist no name
holds `#EXTINF:` or a text that matches the tag pattern, every tag value is non-empty, made of
printable characters other than backslash and comma and free of `#EXTINF:`, no group holds
`#EXTGRP:`, no URI starts with `#`, and every line written has no newline, no carriage return
at its end and fewer than 65536 bytes (`TrackRewritable`).  The rest of what the round trip
needs is guaranteed by `Parse` itself. -/
theorem reparse_of_parsed_playlist (wide : Char → Bool) (lines : List Str) (p : Playlist)
    (h : Parse lines = Result.ok p) (hr : ∀ t ∈ p.Tracks, TrackRewritable wide t) :
    ParseText (Marshall wide p) = Parse lines := by
  rw [h]
  have hp := parseLines_parsed lines true ⟨[]⟩ p (by simp) h
  exact parseText_marshall_readable wide p
    (fun t ht => readable_of_parsed wide t (hp t ht) (hr t ht))

/-- C3, amended, at the first scenario of the specification. -/
theorem reparse_of_parsed_playlist_witness :
    Parse scenarioLines = Result.ok scenarioPlaylist ∧
    (∀ t ∈ scenarioPlaylist.Tracks, TrackRewritable (fun _ => false) t) ∧
    ParseText (Marshall (fun _ => false) scenarioPlaylist) = Parse scenarioLines :=
  ⟨by decide, by decide,
    reparse_of_parsed_playlist _ scenarioLines scenarioPlaylist (by decide) (by decide)⟩

/-- C4 as stated fails: the only line of the file has 65536 bytes and does not begin with
`#EXTM3U`; the scan delivers no line, and `Parse` returns the empty playlist and a nil
error. -/
theorem long_first_line_passes :
    HasPrefix longLine "#EXTM3U".toList = false ∧
    ParseText (textOfLines [longLine]) = Result.ok ⟨[]⟩ := by
  refine ⟨longLine_facts.2.2.2.2, ?_⟩
  unfold ParseText
  rw [show [longLine] = [] ++ longLine :: [] from rfl,
    scanLines_until_long [] longLine [] (by simp) longLine_facts.1 longLine_facts.2.1]
  rfl

/-- C4, amended: for every input whose first line is shorter than 65536 bytes and does not
begin with `#EXTM3U`, `Parse` fails with the missing-header error and an empty playlist,
whatever the text behind the first line is. -/
theorem missing_header_rejected_in_text (text raw : Str) (more : List Str)
    (hlines : rawLines text = raw :: more) (hlen : utf8Len raw < MaxScanTokenSize)
    (h : HasPrefix (dropCR raw) "#EXTM3U".toList = false) :
    ParseText text = Result.error ⟨[]⟩ errHeader := by
  obtain ⟨rest, hr⟩ := scanLines_front text [raw] more hlines (by
    intro l hl
    rw [List.mem_singleton] at hl
    rw [hl]; exact hlen)
  unfold ParseText
  rw [hr]
  exact parse_lines_missing_header (dropCR raw) rest h

/-- C4, amended, at a file that starts with an EXTINF line. -/
theorem missing_header_rejected_in_text_witness :
    rawLines "#EXTINF:10,Only Name\nfile.mp3\n".toList =
      "#EXTINF:10,Only Name".toList :: ["file.mp3".toList] ∧
    HasPrefix (dropCR "#EXTINF:10,Only Name".toList) "#EXTM3U".toList = false ∧
    ParseText "#EXTINF:10,Only Name\nfile.mp3\n".toList =
      Result.error ⟨[]⟩ "Invalid m3u file format. Expected #EXTM3U file header" :=
  ⟨by decide, by decide,
    missing_header_rejected_in_text _ "#EXTINF:10,Only Name".toList ["file.mp3".toList]
      (by decide) (by decide) (by decide)⟩

/-- C5 as stated fails: behind the header stands a location line of 65536 bytes; the scan ends
at it, and `Parse` returns the empty playlist and a nil error instead of the error. -/
theorem long_location_passes :
    (longLine ≠ [] ∧ HasPrefix longLine "#".toList = false) ∧
    ParseText (textOfLines ["#EXTM3U".toList, longLine]) = Result.ok ⟨[]⟩ := by
  refine ⟨⟨longLine_facts.2.2.1, longLine_facts.2.2.2.1⟩, ?_⟩
  unfold ParseText
  rw [show ["#EXTM3U".toList, longLine] = ["#EXTM3U".toList] ++ longLine :: [] from rfl,
    scanLines_until_long _ longLine [] (by decide) longLine_facts.1 longLine_facts.2.1]
  decide

/-- C5, amended: when the input starts with a line that begins with `#EXTM3U`, then lines that
are empty or comments (they start with `#`, but neither with `#EXTINF` nor with `#EXTGRP`),
then a location line (not empty, not starting with `#`), and these lines are all shorter than
65536 bytes, `Parse` fails with the error `URI provided for playlist with no tracks`. -/
theorem location_before_track_rejected_in_text (text hd : Str) (pre : List Str) (loc : Str)
    (more : List Str) (hlines : rawLines text = (hd :: (pre ++ [loc])) ++ more)
    (hshort : ∀ l ∈ hd :: (pre ++ [loc]), utf8Len l < MaxScanTokenSize)
    (hhd : HasPrefix (dropCR hd) "#EXTM3U".toList = true)
    (hpre : ∀ l ∈ pre, isIgnored (dropCR l) = true)
    (hloc : dropCR loc ≠ [] ∧ HasPrefix (dropCR loc) "#".toList = false) :
    ParseText text = Result.error ⟨[]⟩ errNoTracks := by
  obtain ⟨rest, hr⟩ := scanLines_front text _ more hlines hshort
  unfold ParseText
  rw [hr]
  have e : (hd :: (pre ++ [loc])).map dropCR ++ rest =
      dropCR hd :: (pre.map dropCR ++ dropCR loc :: rest) := by simp
  rw [e]
  exact parse_lines_location_before_track (dropCR hd) (pre.map dropCR) (dropCR loc) rest hhd
    (by
      intro l hl
      obtain ⟨x, hx, rfl⟩ := List.mem_map.mp hl
      exact hpre x hx)
    hloc

/-- C5, amended, at the text `#EXTM3U`, newline, `file.mp3`, newline. -/
theorem location_before_track_rejected_in_text_witness :
    rawLines "#EXTM3U\nfile.mp3\n".toList =
      ("#EXTM3U".toList :: ([] ++ ["file.mp3".toList])) ++ [] ∧
    ParseText "#EXTM3U\nfile.mp3\n".toList =
      Result.error ⟨[]⟩ "URI provided for playlist with no tracks" :=
  ⟨by decide,
    location_before_track_rejected_in_text _ "#EXTM3U".toList [] "file.mp3".toList []
      (by decide) (by decide) (by decide) (by simp) (by decide)⟩

/-- C6: on the lines `#EXTM3U`, `#EXTGRP:News` the code indexes the empty list of tracks at
`len - 1`: `Parse` panics and returns no error value. -/
theorem extgrp_before_track_panics :
    Parse ["#EXTM3U".toList, "#EXTGRP:News".toList] = Result.panic := by
  decide

/-- C7 as stated fails: the line `#EXTINF:10,Title, Part 2` gives the name `Title`, not
`Title, Part 2`. -/
theorem name_of_title_part_2 :
    newTrack "#EXTINF:10,Title, Part 2".toList =
      Except.ok ⟨"Title".toList, 10, [], [], []⟩ ∧
    Parse ["#EXTM3U".toList, "#EXTINF:10,Title, Part 2".toList] =
      Result.ok ⟨[⟨"Title".toList, 10, [], [], []⟩]⟩ ∧
    "Title".toList ≠ "Title, Part 2".toList := by
  decide

/-- C7, amended: the line is split at every comma and the name is the second piece, without the
spaces around it.  When the line, `#EXTINF:` removed, is `info,name` followed by nothing or by
a further comma and any text, with no comma in `info` and `name`, the name of the new track is
`name` trimmed: the text after a second comma is not part of it. -/
theorem name_is_second_piece (line info name tail : Str) (track : Track)
    (hline : Remove line "#EXTINF:".toList = info ++ ',' :: (name ++ tail))
    (hinfo : ',' ∉ info) (hname : ',' ∉ name) (htail : tail = [] ∨ tail.head? = some ',')
    (h : newTrack line = Except.ok track) : track.Name = Trim name := by
  obtain ⟨-, -, hn, -⟩ := newTrack_ok line track h
  rw [hn, hline, split_append_sep info _ ',' hinfo]
  rcases htail with ht | ht
  · rw [ht, List.append_nil, split_of_not_mem name ',' hname]; rfl
  · rcases tail with _ | ⟨c, more⟩
    · cases ht
    · simp only [List.head?_cons, Option.some.injEq] at ht
      rw [ht, split_append_sep name _ ',' hname]; rfl

/-- C7, amended, at the line `#EXTINF:10,Title, Part 2`. -/
theorem name_is_second_piece_witness :
    Remove "#EXTINF:10,Title, Part 2".toList "#EXTINF:".toList =
      "10".toList ++ ',' :: ("Title".toList ++ ", Part 2".toList) ∧
    newTrack "#EXTINF:10,Title, Part 2".toList =
      Except.ok ⟨"Title".toList, 10, [], [], []⟩ ∧
    (⟨"Title".toList, 10, [], [], []⟩ : Track).Name = Trim "Title".toList :=
  ⟨by decide, by decide,
    name_is_second_piece "#EXTINF:10,Title, Part 2".toList "10".toList "Title".toList
      ", Part 2".toList ⟨"Title".toList, 10, [], [], []⟩ (by decide) (by decide) (by decide)
      (by decide) (by decide)⟩

/-- C8 as stated fails: the third line has no length, and the error comes with the track of
the second line. -/
theorem error_comes_with_tracks :
    Parse badLengthLines =
      Result.error ⟨[⟨"a".toList, 1, [], [], []⟩]⟩ "Unable to parse length" ∧
    (⟨[⟨"a".toList, 1, [], [], []⟩]⟩ : Playlist).Tracks ≠ [] := by
  decide

/-- C8, amended: when `Parse` returns an error, the input splits into the lines in front of
the offending line, that line and the rest; the playlist returned with the error is the one
which `Parse` returns, without error, for the lines in front of the offending line, and the
lines up to the offending line give the same error. -/
theorem error_playlist_is_parsed_prefix (lines : List Str) (p : Playlist) (msg : String)
    (h : Parse lines = Result.error p msg) :
    ∃ pre bad rest, lines = pre ++ bad :: rest ∧ Parse pre = Result.ok p ∧
      Parse (pre ++ [bad]) = Result.error p msg :=
  parseLines_error_split lines true ⟨[]⟩ p msg h

/-- C8, amended, at a file whose third line has no length. -/
theorem error_playlist_is_parsed_prefix_witness :
    Parse badLengthLines =
      Result.error ⟨[⟨"a".toList, 1, [], [], []⟩]⟩ "Unable to parse length" ∧
    ∃ pre bad rest, badLengthLines = pre ++ bad :: rest ∧
      Parse pre = Result.ok ⟨[⟨"a".toList, 1, [], [], []⟩]⟩ ∧
      Parse (pre ++ [bad]) =
        Result.error ⟨[⟨"a".toList, 1, [], [], []⟩]⟩ "Unable to parse length" :=
  ⟨by decide, error_playlist_is_parsed_prefix badLengthLines _ _ (by decide)⟩

/-- C9 as stated fails: in `#EXTINF:10,Title a="b"` the text `a="b"` stands in the name
segment and gives the tag `(a, b)`. -/
theorem tag_from_name_segment :
    newTrack "#EXTINF:10,Title a=\"b\"".toList =
      Except.ok ⟨"Title a=\"b\"".toList, 10, [], [⟨"a".toList, "b".toList⟩], []⟩ := by
  decide

/-- C9, amended: the tags are the matches of the pattern in the whole line without
`#EXTINF:`, the name segment included.  When that line is `info,pre key="value"post` with no
double quote in `info` and `pre`, a non-empty key of key characters and a non-empty value
without `"` and `=`, the first tag of the new track is `(key, value)`, and the tags after it
are those found in `post`. -/
theorem tags_come_from_whole_line (line info pre key value post : Str) (track : Track)
    (hline : Remove line "#EXTINF:".toList =
      info ++ ',' :: (pre ++ ' ' :: (tagText key value ++ post)))
    (hinfo : '"' ∉ info) (hpre : '"' ∉ pre)
    (hkey : key ≠ [] ∧ ∀ c ∈ key, isKeyChar c = true)
    (hvalue : value ≠ [] ∧ '"' ∉ value ∧ '=' ∉ value)
    (h : newTrack line = Except.ok track) :
    track.Tags = ⟨key, value⟩ :: tagsOfLine post := by
  obtain ⟨-, -, -, ht, -⟩ := newTrack_ok line track h
  have e : info ++ ',' :: (pre ++ ' ' :: (tagText key value ++ post)) =
      (info ++ ',' :: pre) ++ ' ' :: (tagText key value ++ post) := by simp
  have hq : '"' ∉ info ++ ',' :: pre := by
    intro hm
    rcases List.mem_append.mp hm with hm | hm
    · exact hinfo hm
    · rcases List.mem_cons.mp hm with hm | hm
      · revert hm; decide
      · exact hpre hm
  rw [ht, hline, e]
  unfold tagsOfLine FindAllString
  rw [findAllFrom_skip_plain _ _ ' ' hq (by decide) (by decide) (by decide),
    findAllFrom_tagText key value post hkey.1 hkey.2 hvalue.1 hvalue.2.1, List.map_cons,
    tagOfMatch_tagText key value (fun hm => (keyChar_ne _ (hkey.2 _ hm)).1 rfl) hvalue.2.2
      hvalue.2.1]

/-- C9, amended, at the line `#EXTINF:10,Title a="b"`. -/
theorem tags_come_from_whole_line_witness :
    Remove "#EXTINF:10,Title a=\"b\"".toList "#EXTINF:".toList =
      "10".toList ++ ',' :: ("Title".toList ++ ' ' :: (tagText "a".toList "b".toList ++ [])) ∧
    newTrack "#EXTINF:10,Title a=\"b\"".toList =
      Except.ok ⟨"Title a=\"b\"".toList, 10, [], [⟨"a".toList, "b".toList⟩], []⟩ ∧
    (⟨"Title a=\"b\"".toList, 10, [], [⟨"a".toList, "b".toList⟩], []⟩ : Track).Tags =
      ⟨"a".toList, "b".toList⟩ :: tagsOfLine [] :=
  ⟨by decide, by decide,
    tags_come_from_whole_line "#EXTINF:10,Title a=\"b\"".toList "10".toList "Title".toList
      "a".toList "b".toList []
      ⟨"Title a=\"b\"".toList, 10, [], [⟨"a".toList, "b".toList⟩], []⟩
      (by decide) (by decide) (by decide) (by decide) (by decide) (by decide)⟩

/-- C10 as stated fails: the value `a=b` has no double quote, but the pair `k="a=b"` gives
the tag `(k, a)`; and the pair `k=""` with the empty value gives no tag. -/
theorem tag_value_cut_at_equals :
    newTrack "#EXTINF:1 k=\"a=b\",N".toList =
      Except.ok ⟨"N".toList, 1, [], [⟨"k".toList, "a".toList⟩], []⟩ ∧
    newTrack "#EXTINF:1 k=\"\",N".toList = Except.ok ⟨"N".toList, 1, [], [], []⟩ := by
  decide

/-- C10, amended: when the line, `#EXTINF:` removed, is a text without double quote followed by
pairs `key="value"`, each after one space, and then a comma and the name, where every key is a
non-empty text of letters, digits and hyphens and every value is non-empty and has neither `"`
nor `=`, the new track holds for every pair the tag whose name is the key and whose value is
the value. -/
theorem pairs_give_tags (line tok name : Str) (pairs : List (Str × Str)) (track : Track)
    (hline : Remove line "#EXTINF:".toList =
      tok ++ (pairs.flatMap (fun kv => ' ' :: tagText kv.1 kv.2) ++ ',' :: name))
    (htok : '"' ∉ tok)
    (hpairs : ∀ kv ∈ pairs, (kv.1 ≠ [] ∧ ∀ c ∈ kv.1, isKeyChar c = true) ∧
      kv.2 ≠ [] ∧ '"' ∉ kv.2 ∧ '=' ∉ kv.2)
    (h : newTrack line = Except.ok track) :
    ∀ kv ∈ pairs, (⟨kv.1, kv.2⟩ : Tag) ∈ track.Tags := by
  obtain ⟨-, -, -, ht, -⟩ := newTrack_ok line track h
  intro kv hkv
  rw [ht, hline]
  unfold tagsOfLine FindAllString
  have hskip : findAllFrom 0
      (tok ++ (pairs.flatMap (fun kv => ' ' :: tagText kv.1 kv.2) ++ ',' :: name)) =
      pairs.map (fun kv => tagText kv.1 kv.2) ++ findAllFrom 0 (',' :: name) := by
    rcases pairs with _ | ⟨kv0, more⟩
    · cases hkv
    · have h0 := hpairs kv0 (List.mem_cons_self _ _)
      rw [List.flatMap_cons, List.append_assoc, List.cons_append,
        findAllFrom_skip_plain tok _ ' ' htok (by decide) (by decide) (by decide),
        findAllFrom_tagText kv0.1 kv0.2 _ h0.1.1 h0.1.2 h0.2.1 h0.2.2.1,
        findAll_pairs more _ (fun x hx =>
          ⟨(hpairs x (List.mem_cons_of_mem _ hx)).1, (hpairs x (List.mem_cons_of_mem _ hx)).2.1,
            (hpairs x (List.mem_cons_of_mem _ hx)).2.2.1⟩)]
      rfl
  rw [hskip, List.map_append, List.map_map]
  apply List.mem_append_left
  rw [List.mem_map]
  refine ⟨kv, hkv, ?_⟩
  have hk := hpairs kv hkv
  exact tagOfMatch_tagText kv.1 kv.2 (fun hm => (keyChar_ne _ (hk.1.2 _ hm)).1 rfl)
    hk.2.2.2 hk.2.2.1

/-- C10, amended, at the line `#EXTINF:100 a="1" b="2", Title`. -/
theorem pairs_give_tags_witness :
    newTrack "#EXTINF:100 a=\"1\" b=\"2\", Title".toList =
      Except.ok ⟨"Title".toList, 100, [],
        [⟨"a".toList, "1".toList⟩, ⟨"b".toList, "2".toList⟩], []⟩ ∧
    ∀ kv ∈ [("a".toList, "1".toList), ("b".toList, "2".toList)],
      (⟨kv.1, kv.2⟩ : Tag) ∈
        (⟨"Title".toList, 100, [], [⟨"a".toList, "1".toList⟩, ⟨"b".toList, "2".toList⟩],
          []⟩ : Track).Tags :=
  ⟨by decide,
    pairs_give_tags "#EXTINF:100 a=\"1\" b=\"2\", Title".toList "100".toList
      " Title".toList [("a".toList, "1".toList), ("b".toList, "2".toList)]
      ⟨"Title".toList, 100, [], [⟨"a".toList, "1".toList⟩, ⟨"b".toList, "2".toList⟩], []⟩
      (by decide) (by decide) (by decide) (by decide)⟩

/-- C11: for an accepted EXTINF line the tags of the new track are the tags of the matches of
the pattern in the line (without `#EXTINF:`), one tag for each match and in the order of the
matches, which stand in the line from left to right one behind the other; the name of each
tag is the key of its match, so equal keys give several tags. -/
theorem tags_follow_matches (line : Str) (track : Track)
    (h : newTrack line = Except.ok track) :
    track.Tags = (FindAllString (Remove line "#EXTINF:".toList)).map tagOfMatch ∧
    track.Tags.length = (FindAllString (Remove line "#EXTINF:".toList)).length ∧
    occursInOrder (FindAllString (Remove line "#EXTINF:".toList))
      (Remove line "#EXTINF:".toList) ∧
    ∀ m ∈ FindAllString (Remove line "#EXTINF:".toList),
      ∃ key value, m = tagText key value ∧ (tagOfMatch m).Name = key := by
  obtain ⟨-, -, -, ht, -⟩ := newTrack_ok line track h
  refine ⟨ht, by rw [ht]; unfold tagsOfLine; simp, ?_, ?_⟩
  · have := findAllFrom_occurs (Remove line "#EXTINF:".toList) 0
    simpa [FindAllString] using this
  · intro m hm
    obtain ⟨key, value, hkv, -, hk, -, -⟩ := findAllFrom_mem _ 0 m hm
    exact ⟨key, value, hkv, by rw [hkv]; exact (tagOfMatch_parsed key value hk).1⟩

/-- C11 at the two lines of the specification and at a line with the key `a` twice. -/
theorem tags_follow_matches_witness :
    newTrack "#EXTINF:100 a=\"1\" b=\"2\", Title".toList =
      Except.ok ⟨"Title".toList, 100, [],
        [⟨"a".toList, "1".toList⟩, ⟨"b".toList, "2".toList⟩], []⟩ ∧
    FindAllString (Remove "#EXTINF:100 a=\"1\" b=\"2\", Title".toList "#EXTINF:".toList) =
      ["a=\"1\"".toList, "b=\"2\"".toList] ∧
    [(⟨"a".toList, "1".toList⟩ : Tag), ⟨"b".toList, "2".toList⟩] =
      (FindAllString
        (Remove "#EXTINF:100 a=\"1\" b=\"2\", Title".toList "#EXTINF:".toList)).map
        tagOfMatch ∧
    newTrack "#EXTINF:123 tvg-id=\"1\", Channel One".toList =
      Except.ok ⟨"Channel One".toList, 123, [], [⟨"tvg-id".toList, "1".toList⟩], []⟩ ∧
    newTrack "#EXTINF:5 a=\"1\" a=\"2\" a=\"1\",T".toList =
      Except.ok ⟨"T".toList, 5, [],
        [⟨"a".toList, "1".toList⟩, ⟨"a".toList, "2".toList⟩, ⟨"a".toList, "1".toList⟩],
        []⟩ :=
  ⟨by decide, by decide,
    (tags_follow_matches "#EXTINF:100 a=\"1\" b=\"2\", Title".toList
      ⟨"Title".toList, 100, [], [⟨"a".toList, "1".toList⟩, ⟨"b".toList, "2".toList⟩], []⟩
      (by decide)).1,
    by decide, by decide⟩

/-- C12 as stated fails: the token `9223372036854775808` is a decimal integer, and the line is
refused with the length error, the number being outside the range of `int`. -/
theorem length_out_of_range :
    ',' ∈ "#EXTINF:9223372036854775808,N".toList ∧
    Denotes (lengthToken "#EXTINF:9223372036854775808,N".toList) 9223372036854775808 ∧
    newTrack "#EXTINF:9223372036854775808,N".toList =
      Except.error "Unable to parse length" :=
  ⟨by decide,
    ⟨"9223372036854775808".toList, by decide, by decide, Or.inl ⟨Or.inl (by decide),
      by decide⟩⟩,
    by decide⟩

/-- C12, amended: for an EXTINF line with a comma the outcome is the length error exactly when
the first token of the information segment, cut at the first space after the white space
around the segment is removed, is not a decimal integer (an optional sign followed by digits)
that denotes a number of the range of `int`, from `-2^63` to `2^63 - 1`; when it is one, the
line is accepted and the length of the new track is that number. -/
theorem length_error_iff_no_int (line : Str) (h : ',' ∈ line) :
    (newTrack line = Except.error errLength ↔
      ¬ ∃ i : Int, Denotes (lengthToken line) i ∧ -(2 ^ 63 : Int) ≤ i ∧ i < 2 ^ 63) ∧
    ∀ i : Int, Denotes (lengthToken line) i → -(2 ^ 63 : Int) ≤ i → i < 2 ^ 63 →
      ∃ track, newTrack line = Except.ok track ∧ track.Length = i := by
  rcases newTrack_of_comma line h with ⟨hA, hN⟩ | ⟨track, hA, hN⟩
  · have hno : ∀ i : Int, ¬ (Denotes (lengthToken line) i ∧ -(2 ^ 63 : Int) ≤ i ∧ i < 2 ^ 63) := by
      intro i hi
      rw [← atoi_eq_some_iff, hA] at hi
      cases hi
    refine ⟨⟨fun _ => fun ⟨i, hi⟩ => hno i hi, fun _ => hN⟩, ?_⟩
    intro i h1 h2 h3
    exact absurd ⟨h1, h2, h3⟩ (hno i)
  · have hden := (atoi_eq_some_iff _ _).mp hA
    refine ⟨⟨fun he => ?_, fun hne => absurd ⟨track.Length, hden⟩ hne⟩, ?_⟩
    · rw [hN] at he; cases he
    · intro i h1 h2 h3
      have hi := (atoi_eq_some_iff _ _).mpr ⟨h1, h2, h3⟩
      rw [hA, Option.some.injEq] at hi
      exact ⟨track, hN, hi⟩

/-- C12, amended, at a line with the length `-1`. -/
theorem length_error_iff_no_int_witness :
    ',' ∈ "#EXTINF:-1 tvg-id=\"1\",Live".toList ∧
    Denotes (lengthToken "#EXTINF:-1 tvg-id=\"1\",Live".toList) (-1) ∧
    ∃ track, newTrack "#EXTINF:-1 tvg-id=\"1\",Live".toList = Except.ok track ∧
      track.Length = -1 :=
  have hd : Denotes (lengthToken "#EXTINF:-1 tvg-id=\"1\",Live".toList) (-1) :=
    ⟨"1".toList, by decide, by decide, Or.inr ⟨by decide, by decide⟩⟩
  ⟨by decide, hd,
    (length_error_iff_no_int "#EXTINF:-1 tvg-id=\"1\",Live".toList (by decide)).2 (-1) hd
      (by decide) (by decide)⟩

/-- C13 as stated fails: the value `a\b` is written as `"a\\b"`, with the backslash doubled by
`%q`, not as it is. -/
theorem value_written_escaped :
    writeTrack (fun _ => false) ⟨"N".toList, 1, "u".toList, [⟨"k".toList, "a\\b".toList⟩], []⟩
      = "#EXTINF:1 k=\"a\\\\b\", N\nu\n".toList ∧
    writeTrack (fun _ => false) ⟨"N".toList, 1, "u".toList, [⟨"k".toList, "a\\b".toList⟩], []⟩
      ≠ "#EXTINF:1 k=\"a\\b\", N\nu\n".toList := by
  decide

/-- C13, amended: the text written for a track starts with the metadata line, which is
`#EXTINF:`, the length as a decimal integer and one space, the tags in their order, each as
its name, `=` and its value quoted by `%q`, with one space between two tags and none behind
the last, then a comma and a space, the name and a newline.  A value of printable characters
without `"` and backslash is quoted as it is, between two double quotes; any other value is
written with escapes.  Without tags the line is `#EXTINF:`, the length, ` , ` and the
name. -/
theorem metadata_line_written (wide : Char → Bool) (t : Track) :
    writeTrack wide t =
      ("#EXTINF:".toList ++ formatInt t.Length ++ ' ' ::
        ([' '].intercalate (t.Tags.map (renderTag wide)) ++ ", ".toList ++ t.Name)) ++
        '\n' :: ((if t.Group ≠ [] then "#EXTGRP:".toList ++ t.Group ++ ['\n'] else []) ++
          (t.URI ++ ['\n'])) ∧
    Denotes (formatInt t.Length) t.Length ∧
    (∀ tag : Tag, (∀ c ∈ tag.Value, IsPrint wide c = true ∧ c ≠ '"' ∧ c ≠ '\\') →
      renderTag wide tag = tag.Name ++ '=' :: '"' :: (tag.Value ++ ['"'])) ∧
    (t.Tags = [] →
      writeTrack wide t =
        ("#EXTINF:".toList ++ formatInt t.Length ++ " , ".toList ++ t.Name) ++
          '\n' :: ((if t.Group ≠ [] then "#EXTGRP:".toList ++ t.Group ++ ['\n'] else []) ++
            (t.URI ++ ['\n']))) := by
  have hmain : writeTrack wide t =
      ("#EXTINF:".toList ++ formatInt t.Length ++ ' ' ::
        ([' '].intercalate (t.Tags.map (renderTag wide)) ++ ", ".toList ++ t.Name)) ++
        '\n' :: ((if t.Group ≠ [] then "#EXTGRP:".toList ++ t.Group ++ ['\n'] else []) ++
          (t.URI ++ ['\n'])) := by
    rw [← writeTags_intercalate]
    unfold writeTrack
    split <;> simp
  refine ⟨hmain, formatInt_denotes t.Length, ?_, ?_⟩
  · intro tag htag
    unfold renderTag
    rw [quote_plain wide tag.Value htag]
  · intro hnil
    rw [hmain, hnil]
    simp [List.intercalate, List.intersperse]

/-- C13, amended, at the track of the first scenario. -/
theorem metadata_line_written_witness :
    writeTrack (fun _ => false) scenarioTrack =
      "#EXTINF:123 tvg-id=\"1\", Channel One".toList ++
        '\n' :: "#EXTGRP:News\nhttp://example.com/one.m3u8\n".toList :=
  (metadata_line_written (fun _ => false) scenarioTrack).1.trans (by decide)

/-- C14: for every track the text written is the metadata line and its newline, then the line
`#EXTGRP:` with the group and its newline exactly when the group is not empty, then the URI
and its newline: three lines written with a group and two without (and as many newline
characters in the text when no line written holds one). -/
theorem group_line_iff_group (wide : Char → Bool) (t : Track) :
    writeTrack wide t =
      metaLine wide t ++ '\n' ::
        ((if t.Group ≠ [] then "#EXTGRP:".toList ++ t.Group ++ ['\n'] else []) ++
          (t.URI ++ ['\n'])) ∧
    trackLines wide t =
      (if t.Group ≠ [] then [metaLine wide t, "#EXTGRP:".toList ++ t.Group, t.URI]
        else [metaLine wide t, t.URI]) ∧
    writeTrack wide t = (trackLines wide t).flatMap (fun l => l ++ ['\n']) ∧
    ((∀ l ∈ trackLines wide t, '\n' ∉ l) →
      (writeTrack wide t).count '\n' = if t.Group ≠ [] then 3 else 2) := by
  refine ⟨?_, ?_, writeTrack_lines wide t, ?_⟩
  · unfold writeTrack metaLine
    split <;> simp
  · unfold trackLines groupLine
    rfl
  · intro h
    rw [writeTrack_lines]
    unfold trackLines at h ⊢
    split
    · rename_i hg
      simp only [if_pos hg, List.mem_cons, List.mem_singleton, List.not_mem_nil, or_false,
        forall_eq_or_imp, forall_eq] at h
      simp only [List.flatMap_cons, List.flatMap_nil, List.append_nil, List.count_append,
        count_newline_line _ h.1, count_newline_line _ h.2.1, count_newline_line _ h.2.2]
    · rename_i hg
      simp only [if_neg hg, List.mem_cons, List.mem_singleton, List.not_mem_nil, or_false,
        forall_eq_or_imp, forall_eq] at h
      simp only [List.flatMap_cons, List.flatMap_nil, List.append_nil, List.count_append,
        count_newline_line _ h.1, count_newline_line _ h.2]

/-- C15: the text written with the header is `#EXTM3U` and a newline followed by the text
written without the header; for the empty playlist nothing is written without the header; and
`Marshall` returns a nil error and a reader with exactly the text with the header. -/
theorem header_is_first_line (wide : Char → Bool) (p : Playlist) :
    MarshallInto wide p true = "#EXTM3U\n".toList ++ MarshallInto wide p false ∧
    MarshallInto wide ⟨[]⟩ false = [] ∧
    MarshallResult wide p = (some (MarshallInto wide p true), none) ∧
    Marshall wide p = MarshallInto wide p true := by
  refine ⟨?_, rfl, rfl, rfl⟩
  simp [MarshallInto]

/-- C16: the text written without header for the tracks of `p` followed by those of `q` is the
text for `p` followed by the text for `q`; so the text of `p` with header followed by the text
of `q` without header is the text with header of the joined playlist. -/
theorem marshall_distributes_over_append (wide : Char → Bool) (p q : Playlist) :
    MarshallInto wide ⟨p.Tracks ++ q.Tracks⟩ false =
      MarshallInto wide p false ++ MarshallInto wide q false ∧
    MarshallInto wide p true ++ MarshallInto wide q false =
      MarshallInto wide ⟨p.Tracks ++ q.Tracks⟩ true := by
  constructor <;> simp [MarshallInto]

/-- C17 as stated fails: a comment of 65536 bytes put in behind the header of a file of two
tracks ends the scan, and `Parse` returns the empty playlist instead of the two tracks. -/
theorem long_comment_changes_outcome :
    isIgnored longComment = true ∧
    ParseText (textOfLines (["#EXTM3U".toList] ++ twoTrackLines.tail)) =
      Result.ok ⟨[⟨"a".toList, 1, "u".toList, [], []⟩, ⟨"b".toList, 2, "v".toList, [], []⟩]⟩ ∧
    ParseText (textOfLines (["#EXTM3U".toList] ++ longComment :: twoTrackLines.tail)) =
      Result.ok ⟨[]⟩ := by
  refine ⟨longComment_facts.2.2, by decide, ?_⟩
  unfold ParseText
  rw [scanLines_until_long _ longComment _ (by decide) longComment_facts.1
    longComment_facts.2.1]
  decide

/-- C17, amended: a line shorter than 65536 bytes that is empty, or starts with `#` but
neither with `#EXTINF` nor with `#EXTGRP`, put into the text behind the newline of any line,
leaves the outcome of `Parse` as it is: the playlist, the error and its playlist, or the
panic. -/
theorem ignored_line_in_text_changes_nothing (front tail c : Str) (hnl : '\n' ∉ c)
    (hlen : utf8Len c < MaxScanTokenSize) (hc : isIgnored c = true) :
    ParseText (front ++ '\n' :: (c ++ '\n' :: tail)) = ParseText (front ++ '\n' :: tail) := by
  unfold ParseText ScanLines
  rcases scanFrom_front front [] with ⟨pre, hne, hp⟩ | ⟨r, hr⟩
  · rw [hp, hp, scanFrom_line c [] tail hnl (by simpa using hlen), List.nil_append]
    exact parse_lines_ignored_line pre (scanFrom [] tail) (dropCR c) hne
      (isIgnored_dropCR c hc)
  · rw [hr, hr]

/-- C17, amended, at the file of the first scenario, with a comment behind the header. -/
theorem ignored_line_in_text_changes_nothing_witness :
    isIgnored "# a comment".toList = true ∧
    ParseText ("#EXTM3U".toList ++ '\n' :: ("# a comment".toList ++ '\n' ::
      "#EXTINF:123 tvg-id=\"1\", Channel One\n#EXTGRP:News\nhttp://example.com/one.m3u8\n".toList))
      = ParseText ("#EXTM3U".toList ++ '\n' ::
      "#EXTINF:123 tvg-id=\"1\", Channel One\n#EXTGRP:News\nhttp://example.com/one.m3u8\n".toList)
    ∧ ParseText ("#EXTM3U".toList ++ '\n' ::
      "#EXTINF:123 tvg-id=\"1\", Channel One\n#EXTGRP:News\nhttp://example.com/one.m3u8\n".toList)
      = Result.ok scenarioPlaylist :=
  ⟨by decide,
    ignored_line_in_text_changes_nothing _ _ "# a comment".toList (by decide) (by decide)
      (by decide),
    by decide⟩

/-- C18 as stated fails: the line `#EXTGRP:x#EXTGRP:y` sets the group to `xy`, not to
`x#EXTGRP:y`, and the line `#EXTGRPS`, which starts with `#EXTGRP`, sets it to the whole
line. -/
theorem group_loses_inner_marker :
    Parse ["#EXTM3U".toList, "#EXTINF:1,a".toList, "#EXTGRP:x#EXTGRP:y".toList] =
      Result.ok ⟨[⟨"a".toList, 1, [], [], "xy".toList⟩]⟩ ∧
    "xy".toList ≠ "x#EXTGRP:y".toList ∧
    Parse ["#EXTM3U".toList, "#EXTINF:1,a".toList, "#EXTGRPS".toList] =
      Result.ok ⟨[⟨"a".toList, 1, [], [], "#EXTGRPS".toList⟩]⟩ := by
  decide

/-- C18, amended: a line that starts with `#EXTGRP`, processed while the playlist has a last
track, sets the group of that track to the line with every `#EXTGRP:` removed; for a line
`#EXTGRP:` followed by a text `g` that does not hold `#EXTGRP:`, the group becomes `g`,
untrimmed. -/
theorem group_is_line_without_marker (ts : List Track) (t : Track) (g : Str)
    (rest : List Str) (hg : ¬ "#EXTGRP:".toList <:+: g) :
    parseLines false ⟨ts ++ [t]⟩ (("#EXTGRP:".toList ++ g) :: rest) =
      parseLines false ⟨ts ++ [{ t with Group := g }]⟩ rest := by
  have hp : HasPrefix ("#EXTGRP:".toList ++ g) "#EXTGRP".toList = true := by
    rw [hasPrefix_iff]
    exact ⟨':' :: g, by simp⟩
  rw [parseLines_group_step ts t _ rest hp, remove_front _ (by decide),
    remove_of_not_infix _ _ hg]

/-- C18, amended, at the line `#EXTGRP:News` behind the metadata line of the first
scenario. -/
theorem group_is_line_without_marker_witness :
    ¬ "#EXTGRP:".toList <:+: "News".toList ∧
    parseLines false ⟨[] ++ [⟨"Channel One".toList, 123, [], [], []⟩]⟩
        (("#EXTGRP:".toList ++ "News".toList) :: []) =
      parseLines false
        ⟨[] ++ [{ (⟨"Channel One".toList, 123, [], [], []⟩ : Track) with
          Group := "News".toList }]⟩ [] :=
  ⟨by decide, group_is_line_without_marker [] ⟨"Channel One".toList, 123, [], [], []⟩
    "News".toList [] (by decide)⟩

/-- C19: with a last track `t` behind the tracks `ts`, a line that starts with `#EXTGRP`
changes the group of `t` and nothing else, and a location line (not empty, not starting with
`#`) changes the URI of `t`, to the line without the spaces around it, and nothing else: the
tracks `ts`, their number and the other fields of `t` stay; and the track made from an EXTINF
line has an empty URI and an empty group. -/
theorem only_last_track_changes (ts : List Track) (t made : Track) (grp loc inf : Str)
    (rest : List Str) (hgrp : HasPrefix grp "#EXTGRP".toList = true)
    (hloc : loc ≠ [] ∧ HasPrefix loc "#".toList = false)
    (hinf : newTrack inf = Except.ok made) :
    parseLines false ⟨ts ++ [t]⟩ (grp :: rest) =
      parseLines false
        ⟨ts ++ [⟨t.Name, t.Length, t.URI, t.Tags, Remove grp "#EXTGRP:".toList⟩]⟩ rest ∧
    parseLines false ⟨ts ++ [t]⟩ (loc :: rest) =
      parseLines false ⟨ts ++ [⟨t.Name, t.Length, Trim loc, t.Tags, t.Group⟩]⟩ rest ∧
    made.URI = [] ∧ made.Group = [] :=
  ⟨parseLines_group_step ts t grp rest hgrp,
    parseLines_location_step ts t loc rest hloc.1 hloc.2,
    (newTrack_ok inf made hinf).2.2.2.2⟩

/-- C19 at the lines of the first scenario. -/
theorem only_last_track_changes_witness :
    newTrack "#EXTINF:123 tvg-id=\"1\", Channel One".toList =
      Except.ok ⟨"Channel One".toList, 123, [], [⟨"tvg-id".toList, "1".toList⟩], []⟩ ∧
    parseLines false ⟨[] ++ [scenarioTrack]⟩ ["#EXTGRP:Sport".toList] =
      Result.ok ⟨[{ scenarioTrack with Group := "Sport".toList }]⟩ ∧
    parseLines false ⟨[] ++ [scenarioTrack]⟩ [" b.mp3 ".toList] =
      Result.ok ⟨[{ scenarioTrack with URI := "b.mp3".toList }]⟩ :=
  have h := only_last_track_changes [] scenarioTrack
    ⟨"Channel One".toList, 123, [], [⟨"tvg-id".toList, "1".toList⟩], []⟩
    "#EXTGRP:Sport".toList " b.mp3 ".toList
    "#EXTINF:123 tvg-id=\"1\", Channel One".toList [] (by decide) (by decide) (by decide)
  ⟨by decide, h.1.trans (by decide), h.2.1.trans (by decide)⟩

/-- C20: for an input without lines `Parse` returns the empty playlist and a nil error; the
header is asked for only when there is a first line. -/
theorem parse_of_no_lines :
    Parse [] = Result.ok ⟨[]⟩ ∧ ParseText [] = Result.ok ⟨[]⟩ := by
  constructor <;> rfl

end M3U
